import Mathlib

/-
Verification of the generalized English ad auction and its VCG comparison
oracle.  The Python sources (gsp-english.py and projecticd.py) are embedded
shallowly: CTRs, values and prices become rationals, Python lists become
Lean lists, list indexing (including negative indices) becomes an
Option-valued lookup, and runtime errors (IndexError, ZeroDivisionError,
AssertionError) become `none`.
-/

namespace GSP

/-- Python list indexing `l[i]` for an integer index: non-negative indices
read from the front, negative indices read from the back, out-of-range
indices are an IndexError, modelled as `none`. -/
def pyGet (l : List ℚ) (i : ℤ) : Option ℚ :=
  if 0 ≤ i then l.get? i.toNat
  else if -i ≤ (l.length : ℤ) then l.get? (l.length - (-i).toNat) else none

/-- Embedding of `GeneralizedEnglishAuction.__init__`: the constructor body
runs `assert len(ctrs) == n_slots + 1` and `assert ctrs[-1] == 0` and does
not inspect `values`; it returns `true` exactly when neither assertion
fires. -/
def auctionInit (n_slots : ℕ) (ctrs values : List ℚ) : Bool :=
  (ctrs.length == n_slots + 1) && (pyGet ctrs (-1) == some 0) && (values == values)

/-- Embedding of `GeneralizedEnglishAuction.equilibrium_dropout_price`.
`i` is the number of currently active advertisers; `none` models the
IndexError of a failing clamped read (`ctrs[-2]` / `ctrs[-3]`) or the
ZeroDivisionError when the denominator CTR is zero. -/
def equilibrium_dropout_price (ctrs : List ℚ) (i : ℕ) (history : List ℚ)
    (value : ℚ) : Option ℚ :=
  let bi_minus_1 : ℚ := history.getLastD 0
  let position_index : ℤ := (i : ℤ) - 1
  match (if position_index < (ctrs.length : ℤ) then pyGet ctrs position_index
         else pyGet ctrs (-2)),
        (if position_index < (ctrs.length : ℤ) - 1 then pyGet ctrs (position_index - 1)
         else pyGet ctrs (-3)) with
  | some alpha_i, some alpha_i_minus_1 =>
      if alpha_i_minus_1 = 0 then none
      else some (value - alpha_i / alpha_i_minus_1 * (value - bi_minus_1))
  | _, _ => none

/-- The `for adv in active_advertisers` loop of both phases of
`run_auction`: the drop-out price of every active advertiser, paired with
its id, in the order of the active list.  The advertiser count `i` is
fixed before the loop (`len(active_advertisers)`). -/
def computeDropoutPrices (ctrs values : List ℚ) (i : ℕ) (active : List ℕ)
    (history : List ℚ) : Option (List (ℕ × ℚ)) :=
  match active with
  | [] => some []
  | adv :: rest =>
    match values.get? adv with
    | none => none
    | some v =>
      match equilibrium_dropout_price ctrs i history v with
      | none => none
      | some p =>
        match computeDropoutPrices ctrs values i rest history with
        | none => none
        | some others => some ((adv, p) :: others)

/-- The `dropout_prices.sort(key=lambda x: x[1]); dropout_prices[0]` step:
a stable sort by price followed by taking the head returns the first pair
attaining the minimal price, which is what this fold computes (the running
best is replaced only on a strictly smaller price). -/
def selectMin : List (ℕ × ℚ) → Option (ℕ × ℚ)
  | [] => none
  | x :: xs => some (xs.foldl (fun best y => if y.2 < best.2 then y else best) x)

/-- One elimination round, shared verbatim by both loops of `run_auction`:
recompute every active advertiser's drop-out price, then select the lowest
(first on ties). -/
def auctionRound (ctrs values : List ℚ) (active : List ℕ) (history : List ℚ) :
    Option (ℕ × ℚ) :=
  match computeDropoutPrices ctrs values active.length active history with
  | none => none
  | some dps => selectMin dps

/-- The excess-elimination loop `while len(active_advertisers) > n_slots`
of `run_auction`.  Each round appends the selected price to the history,
zeroes the selected advertiser's price and removes it from the active
list.  `fuel` bounds the rounds; `run_auction` supplies enough fuel for
the loop to run to completion. -/
def phase1 (n_slots : ℕ) (ctrs values : List ℚ) :
    ℕ → List ℕ → List ℚ → List ℚ → Option (List ℕ × List ℚ × List ℚ)
  | 0, active, history, prices =>
    if n_slots < active.length then none else some (active, history, prices)
  | fuel + 1, active, history, prices =>
    if n_slots < active.length then
      match auctionRound ctrs values active history with
      | none => none
      | some (adv, price) =>
        phase1 n_slots ctrs values fuel (active.erase adv)
          (history ++ [price]) (prices.set adv 0)
    else some (active, history, prices)

/-- The allocation loop
`while len(active_advertisers) > 1 and next_slot_to_fill >= 0` of
`run_auction`: the selected advertiser takes the worst unfilled slot, its
final price is the previous history entry (0 if none), the slot cursor
moves up, the computed price is appended to the history and the
advertiser is removed. -/
def phase2 (n_slots : ℕ) (ctrs values : List ℚ) :
    ℕ → List ℕ → List ℚ → List ℤ → List ℚ → ℤ →
      Option (List ℕ × List ℚ × List ℤ × List ℚ × ℤ)
  | 0, active, history, allocation, prices, next_slot =>
    if 1 < active.length ∧ 0 ≤ next_slot then none
    else some (active, history, allocation, prices, next_slot)
  | fuel + 1, active, history, allocation, prices, next_slot =>
    if 1 < active.length ∧ 0 ≤ next_slot then
      match auctionRound ctrs values active history with
      | none => none
      | some (adv, price) =>
        phase2 n_slots ctrs values fuel (active.erase adv)
          (history ++ [price]) (allocation.set next_slot.toNat (adv : ℤ))
          (prices.set adv (history.getLastD 0)) (next_slot - 1)
    else some (active, history, allocation, prices, next_slot)

/-- The final block of `run_auction`: `if active_advertisers and
next_slot_to_fill >= 0`, the surviving advertiser takes slot 0 with the
last history entry (0 if the history is empty) as its price. -/
def finalAssign (active : List ℕ) (next_slot : ℤ) (allocation : List ℤ)
    (prices : List ℚ) (history : List ℚ) : List ℤ × List ℚ :=
  match active with
  | [] => (allocation, prices)
  | a :: _ =>
    if 0 ≤ next_slot then
      (allocation.set 0 (a : ℤ), prices.set a (history.getLastD 0))
    else (allocation, prices)

/-- Embedding of `GeneralizedEnglishAuction.run_auction`: excess
elimination, allocation, final assignment.  Returns
`(allocation, prices, history)`; `none` models an uncaught Python
exception.  Both loops remove one advertiser per round, so
`values.length` is always enough fuel. -/
def run_auction (n_slots : ℕ) (ctrs values : List ℚ) :
    Option (List ℤ × List ℚ × List ℚ) :=
  match phase1 n_slots ctrs values values.length (List.range values.length)
      [] (List.replicate values.length 0) with
  | none => none
  | some (active1, history1, prices1) =>
    match phase2 n_slots ctrs values values.length active1 history1
        (List.replicate n_slots (-1)) prices1 ((n_slots : ℤ) - 1) with
    | none => none
    | some (active2, history2, allocation2, prices2, next_slot2) =>
      let fp := finalAssign active2 next_slot2 allocation2 prices2 history2
      some (fp.1, fp.2, history2)

/-- Insertion step of the embedding of `np.argsort(-values)`: index `i` is
placed before the first index of strictly smaller value, hence after every
index of greater-or-equal value. -/
def insertDesc (values : List ℚ) (i : ℕ) : List ℕ → List ℕ
  | [] => [i]
  | j :: rest =>
    if values.getD j 0 < values.getD i 0 then i :: j :: rest
    else j :: insertDesc values i rest

/-- Embedding of `np.argsort(-np.array(values))`: the advertiser indices
ranked by value descending, ties broken by original index order (numpy's
sort on the small arrays of this program is its stable insertion sort). -/
def argsortDesc (values : List ℚ) : List ℕ :=
  (List.range values.length).foldl (fun acc i => insertDesc values i acc) []

/-- The ranking order produced by `argsortDesc`: later ranks have strictly
smaller value, or equal value and larger original index (stability). -/
def rankOrder (values : List ℚ) (a b : ℕ) : Prop :=
  values.getD b 0 < values.getD a 0 ∨
    (values.getD a 0 = values.getD b 0 ∧ a < b)

/-- Embedding of `GeneralizedEnglishAuction.calculate_vcg_payments`: for
each of the top `min n_slots n` ranked advertisers, the CTR-differential
externality sum over the lower ranks, divided by the advertiser's own CTR
when that is positive. -/
def calculate_vcg_payments (n_slots : ℕ) (ctrs values : List ℚ) : List ℚ :=
  let sorted_indices := argsortDesc values
  let n := values.length
  (List.range (min n_slots n)).foldl
    (fun vcg_prices i =>
      let advertiser := sorted_indices.getD i 0
      let payment := (List.range' (i + 1) (min (n_slots + 1) n - (i + 1))).foldl
        (fun acc j =>
          acc + (ctrs.getD (j - 1) 0 - ctrs.getD j 0) *
            values.getD (sorted_indices.getD j 0) 0) 0
      vcg_prices.set advertiser
        (if 0 < ctrs.getD i 0 then payment / ctrs.getD i 0 else 0))
    (List.replicate n 0)

/-- Insertion step of the embedding of `np.sort` (descending view): a
value is placed before the first strictly smaller value. -/
def insertQDesc (x : ℚ) : List ℚ → List ℚ
  | [] => [x]
  | y :: rest => if y < x then x :: y :: rest else y :: insertQDesc x rest

/-- Embedding of `np.sort(others)[::-1]` from `simulate_auctions`: the
list sorted into weakly descending order. -/
def sortDesc (l : List ℚ) : List ℚ :=
  l.foldl (fun acc x => insertQDesc x acc) []

/-- Embedding of `np.sum(a * b)` for two equal-length numpy arrays, as
used for `value_with_i` and `value_without_i` in `simulate_auctions`. -/
def dotSum (a b : List ℚ) : ℚ :=
  ((a.zip b).map fun p => p.1 * p.2).sum

/-- Embedding of the counterfactual VCG payment of `simulate_auctions`
(projecticd.py, lines 68-84) for slot `i`: remove the rank-`i` advertiser
from the descending value list, re-sort the others, and charge the value
the others gain without advertiser `i`, per click. -/
def vcg_counterfactual_payment (n_slots : ℕ) (ctrs sorted_vals : List ℚ)
    (i : ℕ) : ℚ :=
  let slot_ctrs := ctrs.take n_slots
  let others := sorted_vals.eraseIdx i
  let others_sorted := sortDesc others
  let value_with_i := dotSum slot_ctrs (sorted_vals.take n_slots)
  let value_without_i := dotSum slot_ctrs (others_sorted.take n_slots)
  (value_without_i - (value_with_i - slot_ctrs.getD i 0 * sorted_vals.getD i 0)) /
    slot_ctrs.getD i 0

/-- A well-formed `AuctionInstance` in the sense of the specification's
data model: at least one slot, CTRs for every slot plus a final zero,
non-negative and weakly descending CTRs with at least one positive entry
and no adjacent pair of zeros below the slot boundary, and at least one
advertiser, all of positive value. -/
abbrev ValidInstance (n_slots : ℕ) (ctrs values : List ℚ) : Prop :=
  1 ≤ n_slots ∧
  ctrs.length = n_slots + 1 ∧
  (∀ x ∈ ctrs, 0 ≤ x) ∧
  (∀ j, j < ctrs.length - 1 → ctrs.getD (j + 1) 0 ≤ ctrs.getD j 0) ∧
  ctrs.getLast? = some 0 ∧
  (∀ j, j < n_slots - 1 → ¬(ctrs.getD j 0 = 0 ∧ ctrs.getD (j + 1) 0 = 0)) ∧
  (∃ x ∈ ctrs, 0 < x) ∧
  1 ≤ values.length ∧
  (∀ x ∈ values, 0 < x)

/-! ### Basic list and indexing lemmas -/

theorem get?_eq_some_getD {α : Type} {l : List α} {j : ℕ} (d : α) (h : j < l.length) :
    l.get? j = some (l.getD j d) := by
  rw [List.getD_eq_get?]
  cases hq : l.get? j with
  | none => exact absurd (List.get?_eq_none.mp hq) (by omega)
  | some a => rfl

theorem getD_replicate {α : Type} {n j : ℕ} (d x : α) (h : j < n) :
    (List.replicate n x).getD j d = x := by
  rw [List.getD_eq_get?, List.get?_eq_get (by simpa using h)]
  simp

theorem pyGet_ofNat (l : List ℚ) (j : ℕ) : pyGet l (j : ℤ) = l.get? j := by
  simp [pyGet]

theorem pyGet_neg (l : List ℚ) (k : ℕ) (hk : 0 < k) (h : k ≤ l.length) :
    pyGet l (-(k : ℤ)) = l.get? (l.length - k) := by
  have h1 : ¬ (0 : ℤ) ≤ -(k : ℤ) := by omega
  have h2 : -(-(k : ℤ)) ≤ (l.length : ℤ) := by omega
  have h3 : (-(-(k : ℤ))).toNat = k := by omega
  simp only [pyGet, if_neg h1, if_pos h2, h3]

theorem pyGet_neg_none (l : List ℚ) (k : ℕ) (hk : 0 < k) (h : l.length < k) :
    pyGet l (-(k : ℤ)) = none := by
  have h1 : ¬ (0 : ℤ) ≤ -(k : ℤ) := by omega
  have h2 : ¬ -(-(k : ℤ)) ≤ (l.length : ℤ) := by omega
  simp only [pyGet, if_neg h1, if_neg h2]

theorem getD_eq_get {α : Type} {l : List α} {j : ℕ} (d : α) (h : j < l.length) :
    l.getD j d = l.get ⟨j, h⟩ := by
  have h1 := get?_eq_some_getD d h
  rw [List.get?_eq_get h] at h1
  exact (Option.some_injective _ h1).symm

/-- In a valid instance every CTR strictly below the last slot is nonzero:
two adjacent zeros below the slot boundary are forbidden, and a zero
propagates to its right neighbour by descending non-negativity. -/
theorem ctrs_getD_ne_zero {n_slots : ℕ} {ctrs values : List ℚ}
    (hval : ValidInstance n_slots ctrs values) {j : ℕ} (hj : j + 2 ≤ n_slots) :
    ctrs.getD j 0 ≠ 0 := by
  obtain ⟨h1, hlen, hnn, hdesc, hlast, hadj, hpos, hv1, hvp⟩ := id hval
  intro h0
  have hj1 : j + 1 < ctrs.length := by omega
  have hle : ctrs.getD (j + 1) 0 ≤ ctrs.getD j 0 := hdesc j (by omega)
  have hge : 0 ≤ ctrs.getD (j + 1) 0 := by
    have hmem : ctrs.getD (j + 1) 0 ∈ ctrs := by
      rw [getD_eq_get 0 hj1]
      exact List.get_mem _ _ _
    exact hnn _ hmem
  have hz1 : ctrs.getD (j + 1) 0 ≤ 0 := hle.trans (le_of_eq h0)
  exact hadj j (by omega) ⟨h0, le_antisymm hz1 hge⟩

/-! ### The drop-out price formula, by position of the candidate slot -/

/-- Candidate slot inside the slot range (`2 ≤ i ≤ n_slots`): both CTRs are
read directly at indices `i-1` and `i-2`. -/
theorem eqp_in_range {n_slots : ℕ} {ctrs : List ℚ} (hlen : ctrs.length = n_slots + 1)
    {i : ℕ} (h2 : 2 ≤ i) (hin : i ≤ n_slots) (hnz : ctrs.getD (i - 2) 0 ≠ 0)
    (history : List ℚ) (value : ℚ) :
    equilibrium_dropout_price ctrs i history value =
      some (value - ctrs.getD (i - 1) 0 / ctrs.getD (i - 2) 0 *
        (value - history.getLastD 0)) := by
  have hc1 : ((i : ℤ) - 1) < (ctrs.length : ℤ) := by rw [hlen]; push_cast; omega
  have hc2 : ((i : ℤ) - 1) < (ctrs.length : ℤ) - 1 := by rw [hlen]; push_cast; omega
  have hA : (if ((i : ℤ) - 1) < (ctrs.length : ℤ) then pyGet ctrs ((i : ℤ) - 1)
      else pyGet ctrs (-2)) = some (ctrs.getD (i - 1) 0) := by
    rw [if_pos hc1, show (i : ℤ) - 1 = ((i - 1 : ℕ) : ℤ) by omega, pyGet_ofNat,
      get?_eq_some_getD (0 : ℚ) (show i - 1 < ctrs.length by omega)]
  have hB : (if ((i : ℤ) - 1) < (ctrs.length : ℤ) - 1 then pyGet ctrs ((i : ℤ) - 1 - 1)
      else pyGet ctrs (-3)) = some (ctrs.getD (i - 2) 0) := by
    rw [if_pos hc2, show (i : ℤ) - 1 - 1 = ((i - 2 : ℕ) : ℤ) by omega, pyGet_ofNat,
      get?_eq_some_getD (0 : ℚ) (show i - 2 < ctrs.length by omega)]
  simp only [equilibrium_dropout_price, hA, hB]
  rw [if_neg hnz]

/-- Candidate slot just past the slot range (`i = n_slots + 1`): the first
CTR is the final zero entry, the second saturates to `ctrs[-3]`. -/
theorem eqp_boundary {n_slots : ℕ} {ctrs : List ℚ} (hlen : ctrs.length = n_slots + 1)
    (h2 : 2 ≤ n_slots) (hnz : ctrs.getD (n_slots - 2) 0 ≠ 0)
    (history : List ℚ) (value : ℚ) :
    equilibrium_dropout_price ctrs (n_slots + 1) history value =
      some (value - ctrs.getD n_slots 0 / ctrs.getD (n_slots - 2) 0 *
        (value - history.getLastD 0)) := by
  have hc1 : ((n_slots + 1 : ℕ) : ℤ) - 1 < (ctrs.length : ℤ) := by
    rw [hlen]; push_cast; omega
  have hc2 : ¬ (((n_slots + 1 : ℕ) : ℤ) - 1 < (ctrs.length : ℤ) - 1) := by
    rw [hlen]; push_cast; omega
  have hA : (if ((n_slots + 1 : ℕ) : ℤ) - 1 < (ctrs.length : ℤ) then
      pyGet ctrs (((n_slots + 1 : ℕ) : ℤ) - 1) else pyGet ctrs (-2)) =
      some (ctrs.getD n_slots 0) := by
    rw [if_pos hc1, show ((n_slots + 1 : ℕ) : ℤ) - 1 = ((n_slots : ℕ) : ℤ) by omega,
      pyGet_ofNat, get?_eq_some_getD (0 : ℚ) (show n_slots < ctrs.length by omega)]
  have hB : (if ((n_slots + 1 : ℕ) : ℤ) - 1 < (ctrs.length : ℤ) - 1 then
      pyGet ctrs (((n_slots + 1 : ℕ) : ℤ) - 1 - 1) else pyGet ctrs (-3)) =
      some (ctrs.getD (n_slots - 2) 0) := by
    rw [if_neg hc2, show (-3 : ℤ) = -((3 : ℕ) : ℤ) by norm_num,
      pyGet_neg ctrs 3 (by omega) (by omega), hlen,
      show n_slots + 1 - 3 = n_slots - 2 by omega,
      get?_eq_some_getD (0 : ℚ) (show n_slots - 2 < ctrs.length by omega)]
  simp only [equilibrium_dropout_price, hA, hB]
  rw [if_neg hnz]

/-- Candidate slot strictly past the CTR list (`i ≥ n_slots + 2`): both
CTRs saturate, to `ctrs[-2]` and `ctrs[-3]` — the second- and
third-from-last entries. -/
theorem eqp_saturated {n_slots : ℕ} {ctrs : List ℚ} (hlen : ctrs.length = n_slots + 1)
    (h2 : 2 ≤ n_slots) {i : ℕ} (hi : n_slots + 2 ≤ i)
    (hnz : ctrs.getD (n_slots - 2) 0 ≠ 0) (history : List ℚ) (value : ℚ) :
    equilibrium_dropout_price ctrs i history value =
      some (value - ctrs.getD (n_slots - 1) 0 / ctrs.getD (n_slots - 2) 0 *
        (value - history.getLastD 0)) := by
  have hc1 : ¬ ((i : ℤ) - 1 < (ctrs.length : ℤ)) := by rw [hlen]; push_cast; omega
  have hc2 : ¬ ((i : ℤ) - 1 < (ctrs.length : ℤ) - 1) := by rw [hlen]; push_cast; omega
  have hA : (if ((i : ℤ) - 1) < (ctrs.length : ℤ) then pyGet ctrs ((i : ℤ) - 1)
      else pyGet ctrs (-2)) = some (ctrs.getD (n_slots - 1) 0) := by
    rw [if_neg hc1, show (-2 : ℤ) = -((2 : ℕ) : ℤ) by norm_num,
      pyGet_neg ctrs 2 (by omega) (by omega), hlen,
      show n_slots + 1 - 2 = n_slots - 1 by omega,
      get?_eq_some_getD (0 : ℚ) (show n_slots - 1 < ctrs.length by omega)]
  have hB : (if ((i : ℤ) - 1) < (ctrs.length : ℤ) - 1 then pyGet ctrs ((i : ℤ) - 1 - 1)
      else pyGet ctrs (-3)) = some (ctrs.getD (n_slots - 2) 0) := by
    rw [if_neg hc2, show (-3 : ℤ) = -((3 : ℕ) : ℤ) by norm_num,
      pyGet_neg ctrs 3 (by omega) (by omega), hlen,
      show n_slots + 1 - 3 = n_slots - 2 by omega,
      get?_eq_some_getD (0 : ℚ) (show n_slots - 2 < ctrs.length by omega)]
  simp only [equilibrium_dropout_price, hA, hB]
  rw [if_neg hnz]

/-! ### One-step unfolding of the two elimination loops -/

theorem phase1_step {n_slots : ℕ} {ctrs values : List ℚ} {fuel : ℕ}
    {active : List ℕ} {history prices : List ℚ} {adv : ℕ} {p : ℚ}
    (hg : n_slots < active.length)
    (hround : auctionRound ctrs values active history = some (adv, p)) :
    phase1 n_slots ctrs values (fuel + 1) active history prices =
      phase1 n_slots ctrs values fuel (active.erase adv) (history ++ [p])
        (prices.set adv 0) := by
  rw [phase1, if_pos hg, hround]

theorem phase1_stop {n_slots : ℕ} {ctrs values : List ℚ} {fuel : ℕ}
    {active : List ℕ} {history prices : List ℚ} (hg : ¬ n_slots < active.length) :
    phase1 n_slots ctrs values fuel active history prices =
      some (active, history, prices) := by
  cases fuel with
  | zero => rw [phase1, if_neg hg]
  | succ fuel => rw [phase1, if_neg hg]

theorem phase1_err {n_slots : ℕ} {ctrs values : List ℚ} {fuel : ℕ}
    {active : List ℕ} {history prices : List ℚ} (hg : n_slots < active.length)
    (hround : auctionRound ctrs values active history = none) :
    phase1 n_slots ctrs values (fuel + 1) active history prices = none := by
  rw [phase1, if_pos hg, hround]

theorem phase2_step {n_slots : ℕ} {ctrs values : List ℚ} {fuel : ℕ}
    {active : List ℕ} {history prices : List ℚ} {allocation : List ℤ}
    {next_slot : ℤ} {adv : ℕ} {p : ℚ}
    (hg : 1 < active.length ∧ 0 ≤ next_slot)
    (hround : auctionRound ctrs values active history = some (adv, p)) :
    phase2 n_slots ctrs values (fuel + 1) active history allocation prices next_slot =
      phase2 n_slots ctrs values fuel (active.erase adv) (history ++ [p])
        (allocation.set next_slot.toNat (adv : ℤ))
        (prices.set adv (history.getLastD 0)) (next_slot - 1) := by
  rw [phase2, if_pos hg, hround]

theorem phase2_stop {n_slots : ℕ} {ctrs values : List ℚ} {fuel : ℕ}
    {active : List ℕ} {history prices : List ℚ} {allocation : List ℤ}
    {next_slot : ℤ} (hg : ¬ (1 < active.length ∧ 0 ≤ next_slot)) :
    phase2 n_slots ctrs values fuel active history allocation prices next_slot =
      some (active, history, allocation, prices, next_slot) := by
  cases fuel with
  | zero => rw [phase2, if_neg hg]
  | succ fuel => rw [phase2, if_neg hg]

/-! ### The selection step: minimality and first-on-ties -/

/-- The fold underlying `selectMin` returns an element of the list, with
every earlier element strictly greater and every later element
greater-or-equal: exactly the head of a stable sort by price. -/
theorem foldl_min_spec : ∀ (xs : List (ℕ × ℚ)) (x : ℕ × ℚ),
    ∃ pre post,
      x :: xs = pre ++ (xs.foldl (fun best y => if y.2 < best.2 then y else best) x) :: post ∧
      (∀ q ∈ pre, (xs.foldl (fun best y => if y.2 < best.2 then y else best) x).2 < q.2) ∧
      (∀ q ∈ post, (xs.foldl (fun best y => if y.2 < best.2 then y else best) x).2 ≤ q.2)
  | [], x => ⟨[], [], rfl, by simp, by simp⟩
  | y :: ys, x => by
    obtain ⟨pre', post', hdec, hpre, hpost⟩ :=
      foldl_min_spec ys (if y.2 < x.2 then y else x)
    set r := ys.foldl (fun best y => if y.2 < best.2 then y else best)
      (if y.2 < x.2 then y else x) with hr
    have hr_le : r.2 ≤ (if y.2 < x.2 then y else x).2 := by
      cases pre' with
      | nil =>
        simp only [List.nil_append] at hdec
        rw [List.cons.injEq] at hdec
        rw [hdec.1]
      | cons z pre'' =>
        have hz : z = (if y.2 < x.2 then y else x) := by
          rw [List.cons_append, List.cons.injEq] at hdec
          exact hdec.1.symm
        exact le_of_lt (hz ▸ hpre z (by simp))
    show ∃ pre post, x :: y :: ys = pre ++ r :: post ∧ (∀ q ∈ pre, r.2 < q.2) ∧
      (∀ q ∈ post, r.2 ≤ q.2)
    by_cases hxy : y.2 < x.2
    · rw [if_pos hxy] at hdec hr_le
      refine ⟨x :: pre', post', ?_, ?_, hpost⟩
      · rw [List.cons_append, ← hdec]
      · intro q hq
        rcases List.mem_cons.mp hq with hq | hq
        · exact hq ▸ lt_of_le_of_lt hr_le hxy
        · exact hpre q hq
    · rw [if_neg hxy] at hdec hr_le
      push_neg at hxy
      cases pre' with
      | nil =>
        simp only [List.nil_append] at hdec
        rw [List.cons.injEq] at hdec
        refine ⟨[], y :: ys, ?_, by simp, ?_⟩
        · rw [List.nil_append, ← hdec.1]
        · intro q hq
          rcases List.mem_cons.mp hq with hq | hq
          · exact hq ▸ le_trans hr_le hxy
          · rw [hdec.2] at hq
            exact hpost q hq
      | cons z pre'' =>
        rw [List.cons_append, List.cons.injEq] at hdec
        refine ⟨x :: y :: pre'', post', ?_, ?_, hpost⟩
        · rw [List.cons_append, List.cons_append, hdec.2]
        · intro q hq
          rcases List.mem_cons.mp hq with hq | hq
          · exact hq ▸ (hdec.1 ▸ hpre z (by simp))
          · rcases List.mem_cons.mp hq with hq | hq
            · exact hq ▸ lt_of_lt_of_le (hdec.1 ▸ hpre z (by simp)) hxy
            · exact hpre q (by simp [hq])

/-- `selectMin` decomposition: the selected pair splits the price list into
a strictly-greater prefix and a greater-or-equal suffix. -/
theorem selectMin_spec {l : List (ℕ × ℚ)} {m : ℕ × ℚ} (h : selectMin l = some m) :
    ∃ pre post, l = pre ++ m :: post ∧ (∀ q ∈ pre, m.2 < q.2) ∧
      (∀ q ∈ post, m.2 ≤ q.2) := by
  cases l with
  | nil => exact absurd h (by simp [selectMin])
  | cons x xs =>
    obtain ⟨pre, post, hdec, hpre, hpost⟩ := foldl_min_spec xs x
    have hm : m = xs.foldl (fun best y => if y.2 < best.2 then y else best) x := by
      have := h
      simp only [selectMin] at this
      exact (Option.some_injective _ this).symm
    exact ⟨pre, post, hm ▸ hdec, hm ▸ hpre, hm ▸ hpost⟩

theorem selectMin_mem {l : List (ℕ × ℚ)} {m : ℕ × ℚ} (h : selectMin l = some m) :
    m ∈ l := by
  obtain ⟨pre, post, hdec, -, -⟩ := selectMin_spec h
  rw [hdec]
  exact List.mem_append.mpr (Or.inr (by simp))

/-- In a successful price sweep the advertiser ids are exactly the active
list, in order. -/
theorem cdp_fst {ctrs values : List ℚ} {i : ℕ} {history : List ℚ} :
    ∀ {active : List ℕ} {dps : List (ℕ × ℚ)},
      computeDropoutPrices ctrs values i active history = some dps →
      dps.map Prod.fst = active
  | [], dps => by
    intro h
    simp only [computeDropoutPrices] at h
    have hd := Option.some_injective _ h
    subst hd
    rfl
  | adv :: rest, dps => by
    intro h
    simp only [computeDropoutPrices] at h
    cases h1 : values.get? adv with
    | none => simp only [h1] at h; exact Option.noConfusion h
    | some v =>
      simp only [h1] at h
      cases h2 : equilibrium_dropout_price ctrs i history v with
      | none => simp only [h2] at h; exact Option.noConfusion h
      | some p =>
        simp only [h2] at h
        cases h3 : computeDropoutPrices ctrs values i rest history with
        | none => simp only [h3] at h; exact Option.noConfusion h
        | some others =>
          simp only [h3] at h
          have hd := Option.some_injective _ h
          subst hd
          simp [cdp_fst h3]

/-- A successful round selects a member of the active set. -/
theorem auctionRound_mem {ctrs values : List ℚ} {active : List ℕ}
    {history : List ℚ} {adv : ℕ} {p : ℚ}
    (h : auctionRound ctrs values active history = some (adv, p)) : adv ∈ active := by
  simp only [auctionRound] at h
  cases h1 : computeDropoutPrices ctrs values active.length active history with
  | none => rw [h1] at h; exact absurd h (by simp)
  | some dps =>
    rw [h1] at h
    have hmem := selectMin_mem h
    have := cdp_fst h1
    rw [← this]
    exact List.mem_map.mpr ⟨(adv, p), hmem, rfl⟩

/-- `find?` with predicate "price at most `m.2`" skips a strictly-greater
prefix and stops at `m`. -/
theorem find?_min (m : ℕ × ℚ) :
    ∀ (pre : List (ℕ × ℚ)), (∀ q ∈ pre, m.2 < q.2) → ∀ (post : List (ℕ × ℚ)),
      (pre ++ m :: post).find? (fun x => decide (x.2 ≤ m.2)) = some m
  | [], _, post => by
    rw [List.nil_append]
    exact List.find?_cons_of_pos _ (by simp)
  | z :: pre, hpre, post => by
    rw [List.cons_append, List.find?_cons_of_neg _ (by simp [not_le.mpr (hpre z (by simp))])]
    exact find?_min m pre (fun q hq => hpre q (by simp [hq])) post

/-- The drop-out price computation succeeds at every advertiser count
`i ≥ 2` on a valid instance with at least two slots. -/
theorem eqp_isSome {n_slots : ℕ} {ctrs values : List ℚ}
    (hval : ValidInstance n_slots ctrs values) (h2 : 2 ≤ n_slots)
    {i : ℕ} (hi : 2 ≤ i) (history : List ℚ) (value : ℚ) :
    ∃ q, equilibrium_dropout_price ctrs i history value = some q := by
  have hlen : ctrs.length = n_slots + 1 := hval.2.1
  rcases Nat.lt_or_ge i (n_slots + 1) with hlt | hge
  · exact ⟨_, eqp_in_range hlen hi (by omega)
      (ctrs_getD_ne_zero hval (by omega)) history value⟩
  · rcases Nat.lt_or_ge i (n_slots + 2) with heq | hsat
    · have : i = n_slots + 1 := by omega
      subst this
      exact ⟨_, eqp_boundary hlen h2 (ctrs_getD_ne_zero hval (by omega)) history value⟩
    · exact ⟨_, eqp_saturated hlen h2 hsat
        (ctrs_getD_ne_zero hval (by omega)) history value⟩

/-! ### Success and round counting of the two loops -/

/-- On a valid instance with at least two slots, the price sweep succeeds
for every active list of in-range advertisers, at any count `i ≥ 2`. -/
theorem cdp_some {n_slots : ℕ} {ctrs values : List ℚ}
    (hval : ValidInstance n_slots ctrs values) (h2 : 2 ≤ n_slots)
    {i : ℕ} (hi : 2 ≤ i) (history : List ℚ) :
    ∀ active : List ℕ, (∀ a ∈ active, a < values.length) →
      ∃ dps, computeDropoutPrices ctrs values i active history = some dps
  | [] => fun _ => ⟨[], rfl⟩
  | adv :: rest => fun hsub => by
    have hv : values.get? adv = some (values.getD adv 0) :=
      get?_eq_some_getD 0 (hsub adv (by simp))
    obtain ⟨q, hq⟩ := eqp_isSome hval h2 hi history (values.getD adv 0)
    obtain ⟨dps', hdps'⟩ := cdp_some hval h2 hi history rest
      (fun a ha => hsub a (by simp [ha]))
    exact ⟨(adv, q) :: dps', by
      simp only [computeDropoutPrices, hv, hq, hdps']⟩

/-- On a valid instance with at least two slots, a round on at least two
active in-range advertisers succeeds and selects an active advertiser. -/
theorem auctionRound_some {n_slots : ℕ} {ctrs values : List ℚ}
    (hval : ValidInstance n_slots ctrs values) (h2 : 2 ≤ n_slots)
    {active : List ℕ} {history : List ℚ} (hlen : 2 ≤ active.length)
    (hsub : ∀ a ∈ active, a < values.length) :
    ∃ adv p, auctionRound ctrs values active history = some (adv, p) ∧
      adv ∈ active := by
  obtain ⟨dps, hdps⟩ := cdp_some hval h2 hlen history active hsub
  cases dps with
  | nil =>
    have h0 := cdp_fst hdps
    simp only [List.map_nil] at h0
    rw [← h0] at hlen
    exact absurd hlen (by simp)
  | cons x xs =>
    obtain ⟨⟨adv, p⟩, hm⟩ : ∃ m, selectMin (x :: xs) = some m := ⟨_, rfl⟩
    have hr : auctionRound ctrs values active history = some (adv, p) := by
      simp only [auctionRound, hdps]
      exact hm
    exact ⟨adv, p, hr, auctionRound_mem hr⟩

/-- Full behaviour of the excess-elimination loop on a valid instance with
`n_slots ≥ 2`: it succeeds given fuel at least the active count, stops at
`min` of the count and the slot number, and appends one history entry per
eliminated advertiser. -/
theorem phase1_spec {n_slots : ℕ} {ctrs values : List ℚ}
    (hval : ValidInstance n_slots ctrs values) (h2 : 2 ≤ n_slots) :
    ∀ (fuel : ℕ) (active : List ℕ) (history prices : List ℚ),
      (∀ a ∈ active, a < values.length) → active.Nodup → active.length ≤ fuel →
      ∃ active' history' prices',
        phase1 n_slots ctrs values fuel active history prices =
          some (active', history', prices') ∧
        active'.length = min active.length n_slots ∧
        history'.length = history.length + (active.length - n_slots) ∧
        (∀ a ∈ active', a ∈ active) ∧ active'.Nodup ∧
        prices'.length = prices.length := by
  intro fuel
  induction fuel with
  | zero =>
    intro active history prices hsub hnd hfl
    have h0 : active.length = 0 := Nat.le_zero.mp hfl
    have hg : ¬ n_slots < active.length := by omega
    exact ⟨active, history, prices, phase1_stop hg, by omega, by omega,
      fun a ha => ha, hnd, rfl⟩
  | succ fuel ih =>
    intro active history prices hsub hnd hfl
    by_cases hg : n_slots < active.length
    · obtain ⟨adv, p, hround, hmem⟩ := auctionRound_some hval h2 (by omega) hsub
      have hle : (active.erase adv).length = active.length - 1 :=
        List.length_erase_of_mem hmem
      obtain ⟨a', h', p', heq, hl1, hl2, hsub', hnd', hl3⟩ :=
        ih (active.erase adv) (history ++ [p]) (prices.set adv 0)
          (fun a ha => hsub a (List.mem_of_mem_erase ha)) (hnd.erase adv)
          (by omega)
      refine ⟨a', h', p', (phase1_step hg hround).trans heq, ?_, ?_,
        fun a ha => List.mem_of_mem_erase (hsub' a ha), hnd',
        by rw [hl3, List.length_set]⟩
      · rw [hl1, hle]; omega
      · rw [hl2, hle, List.length_append]; simp; omega
    · exact ⟨active, history, prices, phase1_stop hg, by omega, by omega,
        fun a ha => ha, hnd, rfl⟩

/-- Full behaviour of the allocation loop on a valid instance with
`n_slots ≥ 2`: starting from a nonempty active list with enough unfilled
slots, it runs down to a single survivor, appending one history entry and
moving the slot cursor one step per round. -/
theorem phase2_spec {n_slots : ℕ} {ctrs values : List ℚ}
    (hval : ValidInstance n_slots ctrs values) (h2 : 2 ≤ n_slots) :
    ∀ (fuel : ℕ) (active : List ℕ) (history : List ℚ) (allocation : List ℤ)
      (prices : List ℚ) (next_slot : ℤ),
      (∀ a ∈ active, a < values.length) → active.Nodup → active.length ≤ fuel →
      1 ≤ active.length → ((active.length : ℤ) - 1 ≤ next_slot + 1) →
      ∃ active' history' allocation' prices' next_slot',
        phase2 n_slots ctrs values fuel active history allocation prices next_slot =
          some (active', history', allocation', prices', next_slot') ∧
        active'.length = 1 ∧
        history'.length = history.length + (active.length - 1) ∧
        next_slot' = next_slot - ((active.length : ℤ) - 1) ∧
        (∀ a ∈ active', a ∈ active) ∧ active'.Nodup ∧
        prices'.length = prices.length ∧
        allocation'.length = allocation.length := by
  intro fuel
  induction fuel with
  | zero =>
    intro active history allocation prices next_slot hsub hnd hfl h1 hslot
    omega
  | succ fuel ih =>
    intro active history allocation prices next_slot hsub hnd hfl h1 hslot
    by_cases hg : 1 < active.length ∧ 0 ≤ next_slot
    · obtain ⟨adv, p, hround, hmem⟩ := auctionRound_some hval h2 (by omega) hsub
      have hle : (active.erase adv).length = active.length - 1 :=
        List.length_erase_of_mem hmem
      obtain ⟨a', h', al', p', ns', heq, hl1, hl2, hl4, hsub', hnd', hl3, hl5⟩ :=
        ih (active.erase adv) (history ++ [p])
          (allocation.set next_slot.toNat (adv : ℤ))
          (prices.set adv (history.getLastD 0)) (next_slot - 1)
          (fun a ha => hsub a (List.mem_of_mem_erase ha)) (hnd.erase adv)
          (by omega) (by omega) (by rw [hle]; push_cast; omega)
      refine ⟨a', h', al', p', ns', (phase2_step hg hround).trans heq, hl1, ?_, ?_,
        fun a ha => List.mem_of_mem_erase (hsub' a ha), hnd',
        by rw [hl3, List.length_set], by rw [hl5, List.length_set]⟩
      · rw [hl2, hle, List.length_append]; simp; omega
      · rw [hl4, hle]; push_cast; omega
    · have hlen1 : active.length = 1 := by
        rcases not_and_or.mp hg with h | h
        · omega
        · omega
      exact ⟨active, history, allocation, prices, next_slot, phase2_stop hg,
        hlen1, by omega, by rw [hlen1]; push_cast; omega, fun a ha => ha, hnd,
        rfl, rfl⟩

/-- The two loops of `run_auction` on a valid instance with `n_slots ≥ 2`:
both succeed, the excess phase removes `n − min n n_slots` advertisers,
the allocation phase runs down to one survivor, and the final history has
`n − 1` entries. -/
theorem run_parts {n_slots : ℕ} {ctrs values : List ℚ}
    (hval : ValidInstance n_slots ctrs values) (h2 : 2 ≤ n_slots) :
    ∃ a1 h1 p1 a2 h2' al2 pr2 ns2,
      phase1 n_slots ctrs values values.length (List.range values.length) []
        (List.replicate values.length 0) = some (a1, h1, p1) ∧
      phase2 n_slots ctrs values values.length a1 h1
        (List.replicate n_slots (-1)) p1 ((n_slots : ℤ) - 1) =
        some (a2, h2', al2, pr2, ns2) ∧
      run_auction n_slots ctrs values =
        some ((finalAssign a2 ns2 al2 pr2 h2').1,
          (finalAssign a2 ns2 al2 pr2 h2').2, h2') ∧
      a2.length = 1 ∧ (∀ a ∈ a2, a < values.length) ∧ a2.Nodup ∧
      h2'.length = values.length - 1 ∧
      ns2 = (n_slots : ℤ) - ((min values.length n_slots : ℕ) : ℤ) ∧
      pr2.length = values.length ∧ al2.length = n_slots ∧
      (∀ a ∈ a1, a < values.length) ∧ a1.Nodup := by
  have hn1 : 1 ≤ values.length := hval.2.2.2.2.2.2.2.1
  obtain ⟨a1, h1, p1, heq1, hl1, hl2, hsub1, hnd1, hl3⟩ :=
    phase1_spec hval h2 values.length (List.range values.length) []
      (List.replicate values.length 0)
      (fun a ha => List.mem_range.mp ha) (List.nodup_range _)
      (by simp)
  simp only [List.length_range] at hl1 hl2
  obtain ⟨a2, h2', al2, pr2, ns2, heq2, hm1, hm2, hm4, hsub2, hnd2, hm3, hm5⟩ :=
    phase2_spec hval h2 values.length a1 h1 (List.replicate n_slots (-1)) p1
      ((n_slots : ℤ) - 1)
      (fun a ha => List.mem_range.mp (hsub1 a ha)) hnd1
      (by omega) (by omega) (by rw [hl1]; push_cast; omega)
  refine ⟨a1, h1, p1, a2, h2', al2, pr2, ns2, heq1, heq2, ?_, hm1,
    fun a ha => List.mem_range.mp (hsub1 a (hsub2 a ha)), hnd2, ?_, ?_, ?_, ?_,
    fun a ha => List.mem_range.mp (hsub1 a ha), hnd1⟩
  · simp only [run_auction, heq1, heq2]
  · rw [hm2, hl2, hl1]; simp at hl2 ⊢; omega
  · rw [hm4, hl1]; push_cast; omega
  · rw [hm3, hl3, List.length_replicate]
  · rw [hm5, List.length_replicate]

/-! ### Prices of removed advertisers are frozen -/

/-- The allocation loop never touches the price entry of an advertiser
outside its active list, survivors come from the active list, and the
price list keeps its length. -/
theorem phase2_frozen {n_slots : ℕ} {ctrs values : List ℚ} :
    ∀ (fuel : ℕ) (active : List ℕ) (history : List ℚ) (allocation : List ℤ)
      (prices : List ℚ) (next_slot : ℤ)
      {a' : List ℕ} {h' : List ℚ} {al' : List ℤ} {p' : List ℚ} {ns' : ℤ},
      phase2 n_slots ctrs values fuel active history allocation prices next_slot =
        some (a', h', al', p', ns') →
      (∀ k, k ∉ active → p'.get? k = prices.get? k) ∧
      (∀ a ∈ a', a ∈ active) ∧ p'.length = prices.length ∧
      al'.length = allocation.length := by
  intro fuel
  induction fuel with
  | zero =>
    intro active history allocation prices next_slot a' h' al' p' ns' heq
    by_cases hg : 1 < active.length ∧ 0 ≤ next_slot
    · rw [phase2, if_pos hg] at heq
      exact Option.noConfusion heq
    · rw [phase2_stop hg] at heq
      simp only [Option.some.injEq, Prod.mk.injEq] at heq
      obtain ⟨ha, hh, hal, hp, hns⟩ := heq
      subst ha hp hal
      exact ⟨fun k _ => rfl, fun a ha => ha, rfl, rfl⟩
  | succ fuel ih =>
    intro active history allocation prices next_slot a' h' al' p' ns' heq
    by_cases hg : 1 < active.length ∧ 0 ≤ next_slot
    · cases hround : auctionRound ctrs values active history with
      | none =>
        rw [phase2, if_pos hg, hround] at heq
        exact Option.noConfusion heq
      | some m =>
        obtain ⟨adv, p⟩ := m
        rw [phase2_step hg hround] at heq
        obtain ⟨hfr, hsub, hlen, halen⟩ := ih _ _ _ _ _ heq
        have hmem : adv ∈ active := auctionRound_mem hround
        refine ⟨?_, fun a ha => List.mem_of_mem_erase (hsub a ha), ?_, ?_⟩
        · intro k hk
          have h1 : k ∉ active.erase adv := fun hx => hk (List.mem_of_mem_erase hx)
          rw [hfr k h1, List.get?_set_ne _ _ (fun h => hk (by rw [← h]; exact hmem))]
        · rw [hlen, List.length_set]
        · rw [halen, List.length_set]
    · rw [phase2_stop hg] at heq
      simp only [Option.some.injEq, Prod.mk.injEq] at heq
      obtain ⟨ha, hh, hal, hp, hns⟩ := heq
      subst ha hp hal
      exact ⟨fun k _ => rfl, fun a ha => ha, rfl, rfl⟩

/-! ### The argsort embedding: permutation, ordering, stability -/

theorem insertDesc_perm (values : List ℚ) (i : ℕ) :
    ∀ l : List ℕ, (insertDesc values i l).Perm (i :: l)
  | [] => List.Perm.refl _
  | j :: rest => by
    simp only [insertDesc]
    by_cases h : values.getD j 0 < values.getD i 0
    · rw [if_pos h]
    · rw [if_neg h]
      exact ((insertDesc_perm values i rest).cons j).trans (List.Perm.swap i j rest)

theorem foldl_insertDesc_perm (values : List ℚ) :
    ∀ (l : List ℕ) (acc : List ℕ),
      (l.foldl (fun acc i => insertDesc values i acc) acc).Perm (l ++ acc)
  | [], acc => by simp
  | i :: l, acc => by
    simp only [List.foldl_cons, List.cons_append]
    exact (foldl_insertDesc_perm values l (insertDesc values i acc)).trans
      (((insertDesc_perm values i acc).append_left l).trans List.perm_middle)

/-- `argsortDesc` is a permutation of the advertiser indices. -/
theorem argsortDesc_perm (values : List ℚ) :
    (argsortDesc values).Perm (List.range values.length) := by
  have h := foldl_insertDesc_perm values (List.range values.length) []
  simpa [argsortDesc] using h

theorem argsortDesc_length (values : List ℚ) :
    (argsortDesc values).length = values.length := by
  rw [(argsortDesc_perm values).length_eq, List.length_range]

theorem argsortDesc_nodup (values : List ℚ) : (argsortDesc values).Nodup :=
  ((argsortDesc_perm values).nodup_iff).mpr (List.nodup_range _)

theorem argsortDesc_mem_lt {values : List ℚ} {a : ℕ} (h : a ∈ argsortDesc values) :
    a < values.length :=
  List.mem_range.mp ((argsortDesc_perm values).mem_iff.mp h)

theorem mem_insertDesc {values : List ℚ} {i a : ℕ} :
    ∀ {l : List ℕ}, a ∈ insertDesc values i l ↔ a = i ∨ a ∈ l
  | [] => by simp [insertDesc]
  | j :: rest => by
    simp only [insertDesc]
    by_cases h : values.getD j 0 < values.getD i 0
    · rw [if_pos h]
      simp [or_comm, or_assoc, or_left_comm]
    · rw [if_neg h]
      simp only [List.mem_cons, mem_insertDesc]
      tauto

theorem pairwise_insertDesc {values : List ℚ} {i : ℕ} :
    ∀ {l : List ℕ}, (∀ j ∈ l, j < i) → l.Pairwise (rankOrder values) →
      (insertDesc values i l).Pairwise (rankOrder values)
  | [], _, _ => by simp [insertDesc]
  | j :: rest, hlt, hp => by
    simp only [insertDesc]
    obtain ⟨hj, hrest⟩ := List.pairwise_cons.mp hp
    by_cases h : values.getD j 0 < values.getD i 0
    · rw [if_pos h]
      refine List.pairwise_cons.mpr ⟨?_, hp⟩
      intro b hb
      rcases List.mem_cons.mp hb with hb | hb
      · exact Or.inl (hb ▸ h)
      · rcases hj b hb with hlt' | ⟨heq, -⟩
        · exact Or.inl (lt_trans hlt' h)
        · exact Or.inl (heq ▸ h)
    · rw [if_neg h]
      push_neg at h
      refine List.pairwise_cons.mpr ⟨?_, pairwise_insertDesc (fun b hb => hlt b (by simp [hb])) hrest⟩
      intro b hb
      rcases mem_insertDesc.mp hb with hb | hb
      · subst hb
        rcases lt_or_eq_of_le h with h' | h'
        · exact Or.inl h'
        · exact Or.inr ⟨h'.symm, hlt j (by simp)⟩
      · exact hj b hb

theorem foldl_insertDesc_pairwise (values : List ℚ) :
    ∀ (l : List ℕ) (acc : List ℕ), acc.Pairwise (rankOrder values) →
      (∀ j ∈ acc, ∀ i ∈ l, j < i) → l.Pairwise (· < ·) →
      (l.foldl (fun acc i => insertDesc values i acc) acc).Pairwise (rankOrder values)
  | [], acc, hacc, _, _ => hacc
  | i :: l, acc, hacc, hcross, hl => by
    simp only [List.foldl_cons]
    obtain ⟨hi, hl'⟩ := List.pairwise_cons.mp hl
    refine foldl_insertDesc_pairwise values l (insertDesc values i acc)
      (pairwise_insertDesc (fun j hj => hcross j hj i (by simp)) hacc) ?_ hl'
    intro j hj i' hi'
    rcases mem_insertDesc.mp hj with hj | hj
    · exact hj ▸ hi i' hi'
    · exact hcross j hj i' (by simp [hi'])

/-- `argsortDesc` ranks by value descending, ties broken by original index
order: the standard stable descending argsort. -/
theorem argsortDesc_pairwise (values : List ℚ) :
    (argsortDesc values).Pairwise (rankOrder values) :=
  foldl_insertDesc_pairwise values (List.range values.length) []
    (by simp) (by simp) (List.pairwise_lt_range _)

/-! ### Reading entries off the VCG fold -/

theorem foldl_set_length (g : ℕ → ℕ) (f : ℕ → ℚ) :
    ∀ (l : List ℕ) (init : List ℚ),
      (l.foldl (fun pr j => pr.set (g j) (f j)) init).length = init.length
  | [], _ => rfl
  | j :: l, init => by
    simp only [List.foldl_cons]
    rw [foldl_set_length g f l (init.set (g j) (f j)), List.length_set]

theorem foldl_set_get? (g : ℕ → ℕ) (f : ℕ → ℚ) :
    ∀ (m : ℕ) (init : List ℚ) (i : ℕ), i < m →
      (∀ j k, j < m → k < m → g j = g k → j = k) →
      (∀ j, j < m → g j < init.length) →
      ((List.range m).foldl (fun pr j => pr.set (g j) (f j)) init).get? (g i) =
        some (f i)
  | 0, _, _, hi, _, _ => absurd hi (by omega)
  | m + 1, init, i, hi, hinj, hlen => by
    rw [List.range_succ, List.foldl_append, List.foldl_cons, List.foldl_nil]
    rcases Nat.lt_or_ge i m with him | him
    · have hne : g m ≠ g i := fun h => by
        have := hinj m i (by omega) (by omega) h
        omega
      rw [List.get?_set_ne _ _ hne]
      exact foldl_set_get? g f m init i him
        (fun j k hj hk h => hinj j k (by omega) (by omega) h)
        (fun j hj => hlen j (by omega))
    · have hi_eq : i = m := by omega
      subst hi_eq
      have hl : g i <
          ((List.range i).foldl (fun pr j => pr.set (g j) (f j)) init).length := by
        rw [foldl_set_length]
        exact hlen i (by omega)
      rw [List.get?_set_eq_of_lt _ hl]

theorem foldl_set_get?_other (g : ℕ → ℕ) (f : ℕ → ℚ) :
    ∀ (m : ℕ) (init : List ℚ) (a : ℕ), (∀ j, j < m → g j ≠ a) →
      ((List.range m).foldl (fun pr j => pr.set (g j) (f j)) init).get? a =
        init.get? a
  | 0, _, _, _ => rfl
  | m + 1, init, a, hne => by
    rw [List.range_succ, List.foldl_append, List.foldl_cons, List.foldl_nil,
      List.get?_set_ne _ _ (hne m (by omega)),
      foldl_set_get?_other g f m init a (fun j hj => hne j (by omega))]

theorem foldl_add_eq_sum (h : ℕ → ℚ) :
    ∀ (l : List ℕ) (c : ℚ), l.foldl (fun acc j => acc + h j) c = c + (l.map h).sum
  | [], c => by simp
  | j :: l, c => by
    simp only [List.foldl_cons, List.map_cons, List.sum_cons]
    rw [foldl_add_eq_sum h l (c + h j)]
    ring

theorem range'_map_sum (h : ℕ → ℚ) :
    ∀ (k s : ℕ), ((List.range' s k).map h).sum = ∑ j in Finset.Ico s (s + k), h j
  | 0, s => by simp
  | k + 1, s => by
    have h1 : List.range' s (k + 1) = s :: List.range' (s + 1) k := rfl
    have h2 : ∑ j in Finset.Ico s (s + (k + 1)), h j =
        h s + ∑ j in Finset.Ico (s + 1) (s + (k + 1)), h j :=
      Finset.sum_eq_sum_Ico_succ_bot (by omega) h
    rw [h1, List.map_cons, List.sum_cons, h2, range'_map_sum h k (s + 1),
      show s + 1 + k = s + (k + 1) by omega]

/-- The entry of `calculate_vcg_payments` at the advertiser of rank `i`,
exactly as the code computes it. -/
theorem calculate_vcg_payments_get? (n_slots : ℕ) (ctrs values : List ℚ) {i : ℕ}
    (hi : i < min n_slots values.length) :
    (calculate_vcg_payments n_slots ctrs values).get?
      ((argsortDesc values).getD i 0) =
      some (if 0 < ctrs.getD i 0 then
        ((List.range' (i + 1) (min (n_slots + 1) values.length - (i + 1))).foldl
          (fun acc j => acc + (ctrs.getD (j - 1) 0 - ctrs.getD j 0) *
            values.getD ((argsortDesc values).getD j 0) 0) 0) / ctrs.getD i 0
      else 0) := by
  have hinj : ∀ j k, j < min n_slots values.length → k < min n_slots values.length →
      (argsortDesc values).getD j 0 = (argsortDesc values).getD k 0 → j = k := by
    intro j k hj hk h
    have hjl : j < (argsortDesc values).length := by rw [argsortDesc_length]; omega
    have hkl : k < (argsortDesc values).length := by rw [argsortDesc_length]; omega
    rw [getD_eq_get 0 hjl, getD_eq_get 0 hkl] at h
    have h2 := (List.nodup_iff_injective_get.mp (argsortDesc_nodup values)) h
    exact congrArg Fin.val h2
  have hlen : ∀ j, j < min n_slots values.length →
      (argsortDesc values).getD j 0 <
        (List.replicate values.length (0 : ℚ)).length := by
    intro j hj
    rw [List.length_replicate]
    apply argsortDesc_mem_lt
    rw [getD_eq_get 0 (show j < (argsortDesc values).length by rw [argsortDesc_length]; omega)]
    exact List.get_mem _ _ _
  simp only [calculate_vcg_payments]
  exact foldl_set_get? (fun j => (argsortDesc values).getD j 0)
    (fun j => if 0 < ctrs.getD j 0 then
      ((List.range' (j + 1) (min (n_slots + 1) values.length - (j + 1))).foldl
        (fun acc k => acc + (ctrs.getD (k - 1) 0 - ctrs.getD k 0) *
          values.getD ((argsortDesc values).getD k 0) 0) 0) / ctrs.getD j 0
    else 0) (min n_slots values.length) (List.replicate values.length 0) i hi hinj hlen

/-- An advertiser outside the ranked top block keeps the initial price 0. -/
theorem calculate_vcg_payments_get?_other (n_slots : ℕ) (ctrs values : List ℚ)
    {a : ℕ} (ha : a < values.length)
    (hnot : a ∉ (argsortDesc values).take (min n_slots values.length)) :
    (calculate_vcg_payments n_slots ctrs values).get? a = some 0 := by
  have hne : ∀ j, j < min n_slots values.length →
      (argsortDesc values).getD j 0 ≠ a := by
    intro j hj h
    apply hnot
    have hjl : j < (argsortDesc values).length := by rw [argsortDesc_length]; omega
    have hget : ((argsortDesc values).take (min n_slots values.length)).get? j =
        some ((argsortDesc values).getD j 0) := by
      rw [List.get?_take hj, get?_eq_some_getD 0 hjl]
    rw [h] at hget
    exact List.get?_mem hget
  simp only [calculate_vcg_payments]
  rw [foldl_set_get?_other _ _ (min n_slots values.length)
    (List.replicate values.length 0) a hne,
    get?_eq_some_getD 0 (by rw [List.length_replicate]; omega),
    getD_replicate 0 0 ha]

/-! ### The allocation invariant of the allocation loop -/

/-- Through the allocation loop: slots at or below the cursor stay
unassigned (-1); slots above the cursor hold ids of advertisers no longer
active, pairwise distinct; the cursor only moves down and the allocation
list keeps its length. -/
theorem phase2_alloc_inv {n_slots : ℕ} {ctrs values : List ℚ} :
    ∀ (fuel : ℕ) (active : List ℕ) (history : List ℚ) (allocation : List ℤ)
      (prices : List ℚ) (next_slot : ℤ)
      {a' : List ℕ} {h' : List ℚ} {al' : List ℤ} {p' : List ℚ} {ns' : ℤ},
      phase2 n_slots ctrs values fuel active history allocation prices next_slot =
        some (a', h', al', p', ns') →
      active.Nodup →
      next_slot < (allocation.length : ℤ) →
      (∀ s : ℕ, s < allocation.length → (s : ℤ) ≤ next_slot →
        allocation.getD s 0 = -1) →
      (∀ s : ℕ, s < allocation.length → next_slot < (s : ℤ) →
        ∃ b : ℕ, allocation.getD s 0 = (b : ℤ) ∧ b ∉ active) →
      (∀ s t : ℕ, s < allocation.length → t < allocation.length →
        next_slot < (s : ℤ) → next_slot < (t : ℤ) → s ≠ t →
        allocation.getD s 0 ≠ allocation.getD t 0) →
      (ns' ≤ next_slot ∧ al'.length = allocation.length ∧
       (∀ s : ℕ, s < al'.length → (s : ℤ) ≤ ns' → al'.getD s 0 = -1) ∧
       (∀ s : ℕ, s < al'.length → ns' < (s : ℤ) →
         ∃ b : ℕ, al'.getD s 0 = (b : ℤ) ∧ b ∉ a') ∧
       (∀ s t : ℕ, s < al'.length → t < al'.length → ns' < (s : ℤ) →
         ns' < (t : ℤ) → s ≠ t → al'.getD s 0 ≠ al'.getD t 0)) := by
  intro fuel
  induction fuel with
  | zero =>
    intro active history allocation prices next_slot a' h' al' p' ns' heq
      hnd hbd hA1 hA2 hA3
    by_cases hg : 1 < active.length ∧ 0 ≤ next_slot
    · rw [phase2, if_pos hg] at heq
      exact Option.noConfusion heq
    · rw [phase2_stop hg] at heq
      simp only [Option.some.injEq, Prod.mk.injEq] at heq
      obtain ⟨ha, hh, hal, hp, hns⟩ := heq
      subst ha hal hns
      exact ⟨le_refl _, rfl, hA1, hA2, hA3⟩
  | succ fuel ih =>
    intro active history allocation prices next_slot a' h' al' p' ns' heq
      hnd hbd hA1 hA2 hA3
    by_cases hg : 1 < active.length ∧ 0 ≤ next_slot
    · cases hround : auctionRound ctrs values active history with
      | none =>
        rw [phase2, if_pos hg, hround] at heq
        exact Option.noConfusion heq
      | some m =>
        obtain ⟨adv, p⟩ := m
        rw [phase2_step hg hround] at heq
        have hmem : adv ∈ active := auctionRound_mem hround
        have ht0 : ((next_slot.toNat : ℕ) : ℤ) = next_slot := Int.toNat_of_nonneg hg.2
        have ht0lt : next_slot.toNat < allocation.length := by omega
        have hset_eq : (allocation.set next_slot.toNat (adv : ℤ)).getD
            next_slot.toNat 0 = (adv : ℤ) := by
          rw [List.getD_eq_get?, List.get?_set_eq_of_lt _ ht0lt, Option.getD_some]
        have hset_ne : ∀ s : ℕ, s ≠ next_slot.toNat →
            (allocation.set next_slot.toNat (adv : ℤ)).getD s 0 =
              allocation.getD s 0 := by
          intro s hs
          rw [List.getD_eq_get?, List.get?_set_ne _ _ (fun h => hs h.symm),
            ← List.getD_eq_get?]
        have hadv_not : adv ∉ active.erase adv := by
          intro hx
          exact ((List.Nodup.mem_erase_iff hnd).mp hx).1 rfl
        obtain ⟨hns_le, hlen, hB1, hB2, hB3⟩ :=
          ih (active.erase adv) (history ++ [p])
            (allocation.set next_slot.toNat (adv : ℤ))
            (prices.set adv (history.getLastD 0)) (next_slot - 1) heq
            (hnd.erase adv)
            (by rw [List.length_set]; omega)
            (by
              intro s hs hsle
              rw [List.length_set] at hs
              rw [hset_ne s (by omega), hA1 s hs (by omega)])
            (by
              intro s hs hgt
              rw [List.length_set] at hs
              by_cases hcase : s = next_slot.toNat
              · subst hcase
                exact ⟨adv, hset_eq, hadv_not⟩
              · have hgt' : next_slot < (s : ℤ) := by omega
                obtain ⟨b, hb, hbnot⟩ := hA2 s hs hgt'
                exact ⟨b, by rw [hset_ne s hcase]; exact hb,
                  fun hx => hbnot (List.mem_of_mem_erase hx)⟩)
            (by
              intro s t hs ht hgs hgt hst
              rw [List.length_set] at hs ht
              by_cases hcs : s = next_slot.toNat
              · subst hcs
                have hgt' : next_slot < (t : ℤ) := by omega
                obtain ⟨b, hb, hbnot⟩ := hA2 t ht hgt'
                rw [hset_eq, hset_ne t (by omega), hb]
                intro hx
                exact hbnot ((Nat.cast_injective hx) ▸ hmem)
              · by_cases hct : t = next_slot.toNat
                · subst hct
                  have hgs' : next_slot < (s : ℤ) := by omega
                  obtain ⟨b, hb, hbnot⟩ := hA2 s hs hgs'
                  rw [hset_eq, hset_ne s (by omega), hb]
                  intro hx
                  exact hbnot ((Nat.cast_injective hx.symm) ▸ hmem)
                · rw [hset_ne s hcs, hset_ne t hct]
                  exact hA3 s t hs ht (by omega) (by omega) hst)
        rw [List.length_set] at hlen
        exact ⟨by omega, hlen, hB1, hB2, hB3⟩
    · rw [phase2_stop hg] at heq
      simp only [Option.some.injEq, Prod.mk.injEq] at heq
      obtain ⟨ha, hh, hal, hp, hns⟩ := heq
      subst ha hal hns
      exact ⟨le_refl _, rfl, hA1, hA2, hA3⟩

/-- With a single slot and at least two advertisers, the very first
drop-out price computation reads the non-existent `ctrs[-3]` and
`run_auction` raises (returns `none`). -/
theorem run_auction_slot1_crash (ctrs values : List ℚ)
    (hclen : ctrs.length = 2) (hn : 2 ≤ values.length) :
    run_auction 1 ctrs values = none := by
  have hv0 : values.get? 0 = some (values.getD 0 0) := get?_eq_some_getD 0 (by omega)
  have hB : (if ((values.length : ℤ) - 1) < (ctrs.length : ℤ) - 1 then
      pyGet ctrs (((values.length : ℤ) - 1) - 1) else pyGet ctrs (-3)) = none := by
    rw [if_neg (by rw [hclen]; push_cast; omega),
      show (-3 : ℤ) = -((3 : ℕ) : ℤ) by norm_num,
      pyGet_neg_none ctrs 3 (by omega) (by omega)]
  obtain ⟨x, hA⟩ : ∃ x, (if ((values.length : ℤ) - 1) < (ctrs.length : ℤ) then
      pyGet ctrs ((values.length : ℤ) - 1) else pyGet ctrs (-2)) = some x := by
    by_cases hc : ((values.length : ℤ) - 1) < (ctrs.length : ℤ)
    · rw [if_pos hc, show (values.length : ℤ) - 1 = ((values.length - 1 : ℕ) : ℤ) by omega,
        pyGet_ofNat]
      exact ⟨_, get?_eq_some_getD 0 (by omega)⟩
    · rw [if_neg hc, show (-2 : ℤ) = -((2 : ℕ) : ℤ) by norm_num,
        pyGet_neg ctrs 2 (by omega) (by omega)]
      exact ⟨_, get?_eq_some_getD 0 (by omega)⟩
  have heqp : equilibrium_dropout_price ctrs values.length [] (values.getD 0 0) =
      none := by
    simp only [equilibrium_dropout_price, hA, hB]
  obtain ⟨k, hk⟩ : ∃ k, values.length = k + 1 := ⟨values.length - 1, by omega⟩
  have hcdp : ∀ rest : List ℕ,
      computeDropoutPrices ctrs values values.length (0 :: rest) [] = none := by
    intro rest
    simp only [computeDropoutPrices, hv0, heqp]
  have hround : auctionRound ctrs values (List.range values.length) [] = none := by
    have hr : List.range values.length = 0 :: (List.range k).map Nat.succ := by
      rw [hk, List.range_succ_eq_map]
    simp only [auctionRound, List.length_range]
    rw [hr, hcdp]
  have hph : phase1 1 ctrs values values.length (List.range values.length) []
      (List.replicate values.length 0) = none := by
    rw [hk]
    exact phase1_err (by simp; omega) (by rw [← hk]; exact hround)
  simp only [run_auction, hph]

/-! ### Sorting and deletion lemmas for the counterfactual VCG payment -/

theorem insertQDesc_of_le {x : ℚ} :
    ∀ {l : List ℚ}, (∀ y ∈ l, x ≤ y) → insertQDesc x l = l ++ [x]
  | [], _ => rfl
  | y :: rest, h => by
    simp only [insertQDesc]
    rw [if_neg (not_lt.mpr (h y (by simp))),
      insertQDesc_of_le (fun z hz => h z (by simp [hz]))]
    rfl

theorem sortDesc_aux :
    ∀ (l acc : List ℚ), (acc ++ l).Pairwise (fun a b => b ≤ a) →
      l.foldl (fun acc x => insertQDesc x acc) acc = acc ++ l
  | [], acc, _ => by simp
  | x :: rest, acc, hp => by
    simp only [List.foldl_cons]
    have hle : ∀ y ∈ acc, x ≤ y := fun y hy =>
      (List.pairwise_append.mp hp).2.2 y hy x (by simp)
    have hp' : ((acc ++ [x]) ++ rest).Pairwise (fun a b => b ≤ a) := by
      rw [List.append_assoc]
      exact hp
    rw [insertQDesc_of_le hle, sortDesc_aux rest (acc ++ [x]) hp',
      List.append_assoc]
    rfl

/-- `np.sort(...)[::-1]` of an already weakly descending list is the list
itself (equal elements are indistinguishable values). -/
theorem sortDesc_of_sorted {l : List ℚ} (h : l.Pairwise (fun a b => b ≤ a)) :
    sortDesc l = l := by
  have h1 := sortDesc_aux l [] (by simpa using h)
  simpa [sortDesc] using h1

theorem get?_eraseIdx_of_lt {α : Type} :
    ∀ (l : List α) (i k : ℕ), k < i → (l.eraseIdx i).get? k = l.get? k
  | [], _, _, _ => by simp
  | x :: xs, 0, k, hk => absurd hk (by omega)
  | x :: xs, i + 1, 0, hk => by simp [List.eraseIdx]
  | x :: xs, i + 1, k + 1, hk => by
    simp only [List.eraseIdx, List.get?_cons_succ]
    exact get?_eraseIdx_of_lt xs i k (by omega)

theorem get?_eraseIdx_of_ge {α : Type} :
    ∀ (l : List α) (i k : ℕ), i < l.length → i ≤ k →
      (l.eraseIdx i).get? k = l.get? (k + 1)
  | [], _, _, h, _ => absurd h (by simp)
  | x :: xs, 0, k, _, _ => by simp [List.eraseIdx]
  | x :: xs, i + 1, k, hlen, hik => by
    obtain ⟨k', rfl⟩ : ∃ k', k = k' + 1 := ⟨k - 1, by omega⟩
    simp only [List.eraseIdx, List.get?_cons_succ]
    exact get?_eraseIdx_of_ge xs i k' (by simp at hlen; omega) (by omega)

theorem getD_eraseIdx_of_lt {α : Type} {l : List α} {i k : ℕ} (d : α) (hk : k < i) :
    (l.eraseIdx i).getD k d = l.getD k d := by
  rw [List.getD_eq_get?, get?_eraseIdx_of_lt l i k hk, ← List.getD_eq_get?]

theorem getD_eraseIdx_of_ge {α : Type} {l : List α} {i k : ℕ} (d : α)
    (hlen : i < l.length) (hik : i ≤ k) :
    (l.eraseIdx i).getD k d = l.getD (k + 1) d := by
  rw [List.getD_eq_get?, get?_eraseIdx_of_ge l i k hlen hik, ← List.getD_eq_get?]

theorem getD_take {α : Type} {l : List α} {m k : ℕ} (d : α) (hk : k < m) :
    (l.take m).getD k d = l.getD k d := by
  rw [List.getD_eq_get?, List.get?_take hk, ← List.getD_eq_get?]

theorem map_getD {f : ℕ → ℚ} {S : List ℕ} {j : ℕ} (h : j < S.length) :
    (S.map f).getD j 0 = f (S.getD j 0) := by
  rw [List.getD_eq_get?, List.get?_map, get?_eq_some_getD 0 h]
  rfl

/-- `np.sum(a * b)` as a `Finset` sum over the common length. -/
theorem dotSum_eq_sum :
    ∀ (a b : List ℚ),
      dotSum a b = ∑ k in Finset.range (min a.length b.length),
        a.getD k 0 * b.getD k 0
  | [], b => by simp [dotSum]
  | x :: xs, [] => by simp [dotSum]
  | x :: xs, y :: ys => by
    have h1 : dotSum (x :: xs) (y :: ys) = x * y + dotSum xs ys := by
      simp [dotSum]
    have h2 : min (x :: xs).length (y :: ys).length =
        min xs.length ys.length + 1 := by
      simp only [List.length_cons]
      omega
    rw [h1, dotSum_eq_sum xs ys, h2, Finset.sum_range_succ']
    simp only [List.getD_cons_zero, List.getD_cons_succ]
    ring

end GSP

/-- C1: with `i ≥ 2` active advertisers and candidate slot index `i-1`
inside the valid slot range (`i ≤ n_slots`), `equilibrium_dropout_price`
returns `s − (α_i / α_{i−1}) · (s − b_{i−1})`, where `b_{i−1}` is the last
history entry (0 if the history is empty), `α_i` is the CTR at slot index
`i−1` and `α_{i−1}` the CTR at slot index `i−2`. -/
theorem C1_dropout_price_formula (n_slots : ℕ) (ctrs values history : List ℚ)
    (i : ℕ) (s : ℚ) (hval : GSP.ValidInstance n_slots ctrs values)
    (h2 : 2 ≤ i) (hin : i ≤ n_slots) :
    GSP.equilibrium_dropout_price ctrs i history s =
      some (s - ctrs.getD (i - 1) 0 / ctrs.getD (i - 2) 0 *
        (s - history.getLastD 0)) :=
  GSP.eqp_in_range hval.2.1 h2 hin
    (GSP.ctrs_getD_ne_zero hval (by omega)) history s

/-- C1 witness: the formula evaluated on the concrete instance
`n_slots = 2`, `ctrs = [1, 1/2, 0]`, one advertiser of value 3, with
`i = 2` and empty history. -/
theorem C1_dropout_price_formula_witness :
    GSP.equilibrium_dropout_price [1, 1/2, 0] 2 [] 3 =
      some (3 - ([1, 1/2, 0] : List ℚ).getD 1 0 / ([1, 1/2, 0] : List ℚ).getD 0 0 *
        (3 - ([] : List ℚ).getLastD 0)) := by
  have hv : GSP.ValidInstance 2 [1, 1/2, 0] [3] := by with_unfolding_all decide
  exact C1_dropout_price_formula 2 [1, 1/2, 0] [3] [] 2 3 hv (by omega) (by omega)

/-- C6: at every elimination round, in both the excess-elimination phase
and the allocation phase, the advertiser removed from the active set is
one whose computed drop-out price is the minimum among all active
advertisers at that round, ties broken by the first position in the
active list (advertiser id order): no computed price is below the
selected one, and `find?` over the sweep returns exactly the selected
pair. -/
theorem C6_lowest_price_selected (n_slots fuel : ℕ) (ctrs values history prices : List ℚ)
    (allocation : List ℤ) (active : List ℕ) (next_slot : ℤ) (adv : ℕ) (p : ℚ)
    (dps : List (ℕ × ℚ))
    (hdps : GSP.computeDropoutPrices ctrs values active.length active history = some dps)
    (hround : GSP.auctionRound ctrs values active history = some (adv, p))
    (hg1 : n_slots < active.length) (hg2 : 1 < active.length) (hg3 : 0 ≤ next_slot) :
    GSP.phase1 n_slots ctrs values (fuel + 1) active history prices =
      GSP.phase1 n_slots ctrs values fuel (active.erase adv) (history ++ [p])
        (prices.set adv 0) ∧
    GSP.phase2 n_slots ctrs values (fuel + 1) active history allocation prices next_slot =
      GSP.phase2 n_slots ctrs values fuel (active.erase adv) (history ++ [p])
        (allocation.set next_slot.toNat (adv : ℤ))
        (prices.set adv (history.getLastD 0)) (next_slot - 1) ∧
    dps.filter (fun x => decide (x.2 < p)) = [] ∧
    dps.find? (fun x => decide (x.2 ≤ p)) = some (adv, p) := by
  have hsel : GSP.selectMin dps = some (adv, p) := by
    simp only [GSP.auctionRound, hdps] at hround
    exact hround
  obtain ⟨pre, post, hdec, hpre, hpost⟩ := GSP.selectMin_spec hsel
  refine ⟨GSP.phase1_step hg1 hround, GSP.phase2_step ⟨hg2, hg3⟩ hround, ?_, ?_⟩
  · rw [List.filter_eq_nil]
    intro a ha
    simp only [decide_eq_true_eq, not_lt]
    rw [hdec] at ha
    rcases List.mem_append.mp ha with ha | ha
    · exact le_of_lt (hpre a ha)
    · rcases List.mem_cons.mp ha with ha | ha
      · exact le_of_eq (congrArg Prod.snd ha.symm)
      · exact hpost a ha
  · rw [hdec]
    exact GSP.find?_min (adv, p) pre hpre post

/-- C6 witness: a concrete round on `ctrs = [2, 1, 0]`,
`values = [1, 2, 3]` with all three advertisers active: every computed
price is the advertiser's own value, advertiser 0 has the lowest price 1
and is removed by both loops. -/
theorem C6_lowest_price_selected_witness :
    GSP.phase1 2 [2, 1, 0] [1, 2, 3] (0 + 1) [0, 1, 2] [] [0, 0, 0] =
      GSP.phase1 2 [2, 1, 0] [1, 2, 3] 0 ([0, 1, 2].erase 0) ([] ++ [1])
        ([0, 0, 0].set 0 0) ∧
    GSP.phase2 2 [2, 1, 0] [1, 2, 3] (0 + 1) [0, 1, 2] [] [-1, -1] [0, 0, 0] 1 =
      GSP.phase2 2 [2, 1, 0] [1, 2, 3] 0 ([0, 1, 2].erase 0) ([] ++ [1])
        ([-1, -1].set (1 : ℤ).toNat ((0 : ℕ) : ℤ))
        ([0, 0, 0].set 0 (([] : List ℚ).getLastD 0)) (1 - 1) ∧
    ([(0, 1), (1, 2), (2, 3)] : List (ℕ × ℚ)).filter (fun x => decide (x.2 < 1)) = [] ∧
    ([(0, 1), (1, 2), (2, 3)] : List (ℕ × ℚ)).find? (fun x => decide (x.2 ≤ 1)) =
      some (0, 1) := by
  have hdps : GSP.computeDropoutPrices [2, 1, 0] [1, 2, 3]
      ([0, 1, 2] : List ℕ).length [0, 1, 2] [] = some [(0, 1), (1, 2), (2, 3)] := by
    with_unfolding_all decide
  have hround : GSP.auctionRound [2, 1, 0] [1, 2, 3] [0, 1, 2] [] = some (0, 1) := by
    with_unfolding_all decide
  exact C6_lowest_price_selected 2 0 [2, 1, 0] [1, 2, 3] [] [0, 0, 0] [-1, -1]
    [0, 1, 2] 1 0 1 [(0, 1), (1, 2), (2, 3)] hdps hround (by decide) (by decide) (by decide)

/-- C2 (amended): on a valid instance, `run_auction` terminates without
error for every number of advertisers provided `n_slots ≥ 2`; when the
candidate slot index `i−1` lies strictly past the CTR list
(`i ≥ n_slots + 2`), the two CTRs used by the drop-out-price formula
saturate to the second-from-last and third-from-last entries of the CTR
sequence (`ctrs[-2]` and `ctrs[-3]`), not to the last two entries.  With
`n_slots = 1` the saturated read `ctrs[-3]` does not exist and
`run_auction` raises. -/
theorem C2_no_error_and_saturation (n_slots i : ℕ) (ctrs values history : List ℚ)
    (value : ℚ) (hval : GSP.ValidInstance n_slots ctrs values)
    (h2 : 2 ≤ n_slots) (hi : n_slots + 2 ≤ i) :
    (GSP.run_auction n_slots ctrs values).isSome = true ∧
    GSP.equilibrium_dropout_price ctrs i history value =
      some (value - ctrs.getD (n_slots - 1) 0 / ctrs.getD (n_slots - 2) 0 *
        (value - history.getLastD 0)) := by
  constructor
  · obtain ⟨a1, h1, p1, a2, h2', al2, pr2, ns2, -, -, hrun, -⟩ :=
      GSP.run_parts hval h2
    rw [hrun]
    rfl
  · exact GSP.eqp_saturated hval.2.1 h2 hi
      (GSP.ctrs_getD_ne_zero hval (by omega)) history value

/-- C2 witness: the valid instance `n_slots = 2`, `ctrs = [2, 1, 0]`,
`values = [1, 2, 3]` runs to completion, and with `i = 4` active
advertisers the saturated drop-out price of value 5 reads `ctrs[-2] = 1`
and `ctrs[-3] = 2`. -/
theorem C2_no_error_and_saturation_witness :
    (GSP.run_auction 2 [2, 1, 0] [1, 2, 3]).isSome = true ∧
    GSP.equilibrium_dropout_price [2, 1, 0] 4 [] 5 =
      some (5 - ([2, 1, 0] : List ℚ).getD 1 0 / ([2, 1, 0] : List ℚ).getD 0 0 *
        (5 - ([] : List ℚ).getLastD 0)) := by
  have hv : GSP.ValidInstance 2 [2, 1, 0] [1, 2, 3] := by with_unfolding_all decide
  exact C2_no_error_and_saturation 2 4 [2, 1, 0] [1, 2, 3] [] 5 hv (by omega) (by omega)

/-- C2 counterexample: the instance `n_slots = 1`, `ctrs = [1, 0]`,
`values = [1, 2]` is valid, yet `run_auction` raises an IndexError (the
first round reads the non-existent `ctrs[-3]`), refuting the claim that
every valid instance runs without error for every `n_advertisers`. -/
theorem C2_counterexample_slot1_crash :
    GSP.ValidInstance 1 [1, 0] [1, 2] ∧ GSP.run_auction 1 [1, 0] [1, 2] = none := by
  with_unfolding_all decide

/-- C5 (amended): on a valid instance with `n_slots ≥ 2` (or a single
advertiser), `run_auction` terminates after exactly `n_advertisers − 1`
elimination rounds: the returned history has length `n_advertisers − 1`.
With `n_slots = 1` and at least two advertisers it instead raises. -/
theorem C5_rounds_history_length (n_slots : ℕ) (ctrs values : List ℚ)
    (hval : GSP.ValidInstance n_slots ctrs values)
    (hx : 2 ≤ n_slots ∨ values.length = 1) :
    (GSP.run_auction n_slots ctrs values).map (fun r => r.2.2.length) =
      some (values.length - 1) := by
  rcases hx with h2 | hn1
  · obtain ⟨a1, h1, p1, a2, h2', al2, pr2, ns2, -, -, hrun, -, -, -, hlen, -⟩ :=
      GSP.run_parts hval h2
    rw [hrun, Option.map_some', hlen]
  · have hg1 : ¬ n_slots < (List.range values.length).length := by
      simp only [List.length_range]
      omega
    have hstop1 : GSP.phase1 n_slots ctrs values values.length
        (List.range values.length) [] (List.replicate values.length 0) =
        some (List.range values.length, [], List.replicate values.length 0) :=
      GSP.phase1_stop hg1
    have hg2 : ¬ (1 < (List.range values.length).length ∧
        0 ≤ (n_slots : ℤ) - 1) := by
      simp only [List.length_range]
      omega
    have hstop2 : GSP.phase2 n_slots ctrs values values.length
        (List.range values.length) [] (List.replicate n_slots (-1))
        (List.replicate values.length 0) ((n_slots : ℤ) - 1) =
        some (List.range values.length, [], List.replicate n_slots (-1),
          List.replicate values.length 0, (n_slots : ℤ) - 1) :=
      GSP.phase2_stop hg2
    simp only [GSP.run_auction, hstop1, hstop2, Option.map_some']
    simp [hn1]

/-- C5 witness: the valid instance `n_slots = 2`, `ctrs = [2, 1, 0]`,
`values = [1, 2, 3]` produces a history of length exactly 2. -/
theorem C5_rounds_history_length_witness :
    (GSP.run_auction 2 [2, 1, 0] [1, 2, 3]).map (fun r => r.2.2.length) =
      some (([1, 2, 3] : List ℚ).length - 1) := by
  have hv : GSP.ValidInstance 2 [2, 1, 0] [1, 2, 3] := by with_unfolding_all decide
  exact C5_rounds_history_length 2 [2, 1, 0] [1, 2, 3] hv (Or.inl (by omega))

/-- C5 counterexample: on the valid instance `n_slots = 1`,
`ctrs = [1, 0]`, `values = [1, 2]` (two advertisers), `run_auction`
returns no history at all — it raises — so it does not terminate after
`n_advertisers − 1 = 1` elimination rounds as claimed. -/
theorem C5_counterexample_no_history :
    GSP.ValidInstance 1 [1, 0] [1, 2] ∧
    (GSP.run_auction 1 [1, 0] [1, 2]).map (fun r => r.2.2.length) = none := by
  with_unfolding_all decide

/-- C3: in the allocation phase, an advertiser eliminated at a round whose
history is `history` receives as final per-click price the history entry
recorded immediately before the elimination, `history.getLastD 0` (0 when
empty), and this price survives to the end of the auction; the single
remaining advertiser, when a slot remains unfilled, takes slot index 0 and
receives the last entry of the final history (0 when empty). -/
theorem C3_prices_from_history (n_slots fuel : ℕ) (ctrs values history prices : List ℚ)
    (allocation : List ℤ) (active : List ℕ) (next_slot : ℤ) (adv a : ℕ) (p : ℚ)
    (rest active' : List ℕ) (history' : List ℚ) (allocation' : List ℤ)
    (prices' : List ℚ) (next_slot' : ℤ)
    (hsub : ∀ x ∈ active, x < prices.length) (hnd : active.Nodup)
    (hallen : 0 < allocation.length)
    (hg1 : 1 < active.length) (hg2 : 0 ≤ next_slot)
    (hround : GSP.auctionRound ctrs values active history = some (adv, p))
    (hrest : GSP.phase2 n_slots ctrs values fuel (active.erase adv) (history ++ [p])
      (allocation.set next_slot.toNat (adv : ℤ))
      (prices.set adv (history.getLastD 0)) (next_slot - 1) =
      some (active', history', allocation', prices', next_slot'))
    (hsurv : active' = a :: rest) (hns : 0 ≤ next_slot') :
    (GSP.finalAssign active' next_slot' allocation' prices' history').2.get? adv =
      some (history.getLastD 0) ∧
    (GSP.finalAssign active' next_slot' allocation' prices' history').1.get? 0 =
      some ((a : ℕ) : ℤ) ∧
    (GSP.finalAssign active' next_slot' allocation' prices' history').2.get? a =
      some (history'.getLastD 0) := by
  obtain ⟨hfr, hsub', hlen', hallen'⟩ := GSP.phase2_frozen fuel _ _ _ _ _ hrest
  have hmem : adv ∈ active := GSP.auctionRound_mem hround
  have hadv_lt : adv < prices.length := hsub adv hmem
  have hadv_not : adv ∉ active.erase adv := by
    intro hx
    exact (List.Nodup.mem_erase_iff hnd).mp hx |>.1 rfl
  have ha_erase : a ∈ active.erase adv := hsub' a (hsurv ▸ List.mem_cons_self a rest)
  have hne : a ≠ adv := fun h => hadv_not (h ▸ ha_erase)
  have hfin : (GSP.finalAssign active' next_slot' allocation' prices' history').2 =
      prices'.set a (history'.getLastD 0) := by
    rw [hsurv]
    simp only [GSP.finalAssign, if_pos hns]
  have hfin1 : (GSP.finalAssign active' next_slot' allocation' prices' history').1 =
      allocation'.set 0 ((a : ℕ) : ℤ) := by
    rw [hsurv]
    simp only [GSP.finalAssign, if_pos hns]
  refine ⟨?_, ?_, ?_⟩
  · rw [hfin, List.get?_set_ne _ _ hne, hfr adv hadv_not,
      List.get?_set_eq_of_lt _ hadv_lt]
  · have h0_lt : 0 < allocation'.length := by
      rw [hallen', List.length_set]
      exact hallen
    rw [hfin1, List.get?_set_eq_of_lt _ h0_lt]
  · have ha_lt : a < prices'.length := by
      rw [hlen', List.length_set]
      exact hsub a (List.mem_of_mem_erase ha_erase)
    rw [hfin, List.get?_set_eq_of_lt _ ha_lt]

/-- C3 witness: on `ctrs = [2, 1, 0]`, `values = [1, 2]`, the first
allocation round eliminates advertiser 0 (price 1/2) who receives the
pre-round history entry 0, and survivor 1 takes slot 0 and receives the
last history entry 1/2. -/
theorem C3_prices_from_history_witness :
    (GSP.finalAssign [1] 0 [-1, 0] [0, 0] [1/2]).2.get? 0 =
      some (([] : List ℚ).getLastD 0) ∧
    (GSP.finalAssign [1] 0 [-1, 0] [0, 0] [1/2]).1.get? 0 =
      some (((1 : ℕ) : ℤ)) ∧
    (GSP.finalAssign [1] 0 [-1, 0] [0, 0] [1/2]).2.get? 1 =
      some (([1/2] : List ℚ).getLastD 0) := by
  have hround : GSP.auctionRound [2, 1, 0] [1, 2] [0, 1] [] = some (0, 1/2) := by
    with_unfolding_all decide
  have hrest : GSP.phase2 2 [2, 1, 0] [1, 2] 1 ([0, 1].erase 0) ([] ++ [1/2])
      ([-1, -1].set (1 : ℤ).toNat ((0 : ℕ) : ℤ))
      ([0, 0].set 0 (([] : List ℚ).getLastD 0)) (1 - 1) =
      some ([1], [1/2], [-1, 0], [0, 0], 0) := by
    with_unfolding_all decide
  exact C3_prices_from_history 2 1 [2, 1, 0] [1, 2] [] [0, 0] [-1, -1] [0, 1] 1 0 1
    (1/2) [] [1] [1/2] [-1, 0] [0, 0] 0 (by decide) (by decide) (by decide)
    (by decide) (by decide) hround hrest rfl (by decide)

/-- C8 (amended): constructing a `GeneralizedEnglishAuction` succeeds
exactly when the CTR list has length `n_slots + 1` and its last element is
0: wrong length and nonzero terminal CTR fail at construction time, but
non-descending CTRs and empty `values` are accepted — the constructor
performs no descending-order check and no non-emptiness check. -/
theorem C8_init_characterization (n_slots : ℕ) (ctrs values : List ℚ) :
    GSP.auctionInit n_slots ctrs values = true ↔
      (ctrs.length = n_slots + 1 ∧ ctrs.getLast? = some 0) := by
  have hlast : ∀ h : 1 ≤ ctrs.length, GSP.pyGet ctrs (-1) = ctrs.getLast? := by
    intro h
    rw [show (-1 : ℤ) = -((1 : ℕ) : ℤ) by norm_num, GSP.pyGet_neg ctrs 1 one_pos h,
      List.getLast?_eq_get?]
  simp only [GSP.auctionInit, Bool.and_eq_true, beq_iff_eq]
  constructor
  · rintro ⟨⟨h1, h2⟩, -⟩
    refine ⟨h1, ?_⟩
    rwa [hlast (by omega)] at h2
  · rintro ⟨h1, h2⟩
    exact ⟨⟨h1, by rwa [hlast (by omega)]⟩, trivial⟩

/-- C8 counterexample: non-descending CTRs (`[1/2, 1, 0]` increases) and
empty `values` both pass construction — no input-validation error is
raised — refuting the claim that they fail at construction time. -/
theorem C8_counterexample_malformed_accepted :
    GSP.auctionInit 2 [1/2, 1, 0] [] = true ∧
    ([1/2, 1, 0] : List ℚ).getD 0 0 < ([1/2, 1, 0] : List ℚ).getD 1 0 ∧
    ([] : List ℚ).length = 0 := by
  with_unfolding_all decide

/-- C9 (amended): on `n_slots = 2`, `ctrs = [1, 3/5, 0]`,
`values = [10, 6, 2]`, the VCG per-click price of the rank-0 advertiser is
`((1 − 3/5)·6 + (3/5 − 0)·2) / 1 = 18/5 = 3.6`: the sum runs over both
lower ranks (`j = 1` and `j = 2`), not only over `j = 1` as the spec's
hand-derived fixture `2.4` assumed. -/
theorem C9_vcg_fixture :
    (GSP.calculate_vcg_payments 2 [1, 3/5, 0] [10, 6, 2]).getD 0 0 =
      ((1 - 3/5) * 6 + (3/5 - 0) * 2) / 1 := by
  with_unfolding_all decide

/-- C9 counterexample: the code's VCG price for the rank-0 advertiser on
the spec's fixture is not the spec's expected `2.4 = 12/5` (it is `18/5`). -/
theorem C9_counterexample_fixture :
    (GSP.calculate_vcg_payments 2 [1, 3/5, 0] [10, 6, 2]).getD 0 0 ≠ 12/5 := by
  with_unfolding_all decide

/-- C4: `calculate_vcg_payments` ranks all advertisers by value descending
with ties broken by original index order (stable); the advertiser at
rank `i < min n_slots n` receives per-click price equal to the sum over
ranks `j` from `i+1` to `n_slots` inclusive (bounded by advertiser count)
of `(ctr[j-1] − ctr[j]) · value[rank j]`, divided by `ctr[i]` (0 if
`ctr[i] = 0`); every advertiser outside the top `n_slots` gets price 0. -/
theorem C4_vcg_ranking_and_payments (n_slots : ℕ) (ctrs values : List ℚ) (i a : ℕ)
    (hval : GSP.ValidInstance n_slots ctrs values)
    (hi : i < min n_slots values.length) (ha : a < values.length)
    (hnot : a ∉ (GSP.argsortDesc values).take (min n_slots values.length)) :
    (GSP.argsortDesc values).Perm (List.range values.length) ∧
    (GSP.argsortDesc values).Pairwise (GSP.rankOrder values) ∧
    (GSP.calculate_vcg_payments n_slots ctrs values).getD
        ((GSP.argsortDesc values).getD i 0) 0 =
      (if ctrs.getD i 0 = 0 then 0 else
        (∑ j in Finset.Ico (i + 1) (min (n_slots + 1) values.length),
          (ctrs.getD (j - 1) 0 - ctrs.getD j 0) *
            values.getD ((GSP.argsortDesc values).getD j 0) 0) / ctrs.getD i 0) ∧
    (GSP.calculate_vcg_payments n_slots ctrs values).getD a 0 = 0 := by
  refine ⟨GSP.argsortDesc_perm values, GSP.argsortDesc_pairwise values, ?_, ?_⟩
  · rw [List.getD_eq_get?, GSP.calculate_vcg_payments_get? n_slots ctrs values hi,
      Option.getD_some]
    have hsum : (List.range' (i + 1) (min (n_slots + 1) values.length - (i + 1))).foldl
        (fun acc k => acc + (ctrs.getD (k - 1) 0 - ctrs.getD k 0) *
          values.getD ((GSP.argsortDesc values).getD k 0) 0) 0 =
        ∑ j in Finset.Ico (i + 1) (min (n_slots + 1) values.length),
          (ctrs.getD (j - 1) 0 - ctrs.getD j 0) *
            values.getD ((GSP.argsortDesc values).getD j 0) 0 := by
      rw [GSP.foldl_add_eq_sum, zero_add, GSP.range'_map_sum,
        show i + 1 + (min (n_slots + 1) values.length - (i + 1)) =
          min (n_slots + 1) values.length by omega]
    rw [hsum]
    have hnn : 0 ≤ ctrs.getD i 0 := by
      have hmem : ctrs.getD i 0 ∈ ctrs := by
        rw [GSP.getD_eq_get 0 (show i < ctrs.length by rw [hval.2.1]; omega)]
        exact List.get_mem _ _ _
      exact hval.2.2.1 _ hmem
    by_cases hc : ctrs.getD i 0 = 0
    · rw [if_pos hc, if_neg (by rw [hc]; exact lt_irrefl 0)]
    · rw [if_neg hc, if_pos (lt_of_le_of_ne hnn (Ne.symm hc))]
  · rw [List.getD_eq_get?,
      GSP.calculate_vcg_payments_get?_other n_slots ctrs values ha hnot,
      Option.getD_some]

/-- C4 witness: on `n_slots = 2`, `ctrs = [2, 1, 0]`, `values = [10, 6, 2]`
the ranking is `[0, 1, 2]`; the rank-0 advertiser's price is computed by
the externality sum over ranks 1 and 2, and advertiser 2 (outside the top
2) has price 0. -/
theorem C4_vcg_ranking_and_payments_witness :
    (GSP.argsortDesc [10, 6, 2]).Perm (List.range ([10, 6, 2] : List ℚ).length) ∧
    (GSP.argsortDesc [10, 6, 2]).Pairwise (GSP.rankOrder [10, 6, 2]) ∧
    (GSP.calculate_vcg_payments 2 [2, 1, 0] [10, 6, 2]).getD
        ((GSP.argsortDesc [10, 6, 2]).getD 0 0) 0 =
      (if ([2, 1, 0] : List ℚ).getD 0 0 = 0 then 0 else
        (∑ j in Finset.Ico (0 + 1) (min (2 + 1) ([10, 6, 2] : List ℚ).length),
          (([2, 1, 0] : List ℚ).getD (j - 1) 0 - ([2, 1, 0] : List ℚ).getD j 0) *
            ([10, 6, 2] : List ℚ).getD ((GSP.argsortDesc [10, 6, 2]).getD j 0) 0) /
          ([2, 1, 0] : List ℚ).getD 0 0) ∧
    (GSP.calculate_vcg_payments 2 [2, 1, 0] [10, 6, 2]).getD 2 0 = 0 := by
  have hval : GSP.ValidInstance 2 [2, 1, 0] [10, 6, 2] := by with_unfolding_all decide
  have hnot : (2 : ℕ) ∉ (GSP.argsortDesc [10, 6, 2]).take
      (min 2 ([10, 6, 2] : List ℚ).length) := by with_unfolding_all decide
  exact C4_vcg_ranking_and_payments 2 [2, 1, 0] [10, 6, 2] 0 2 hval
    (by with_unfolding_all decide) (by with_unfolding_all decide) hnot

/-- C7 (amended): for every valid instance, the allocation returned by
`run_auction` never assigns the same advertiser to two slots and each slot
holds at most one advertiser; when there are fewer advertisers than slots
the unassigned slots (sentinel -1) are exactly the indices
`1 .. n_slots − n_advertisers` — the best slots apart from slot 0 — not
the slots with index `≥ n_advertisers`: the loop fills slots bottom-up,
and every slot outside that range (slot 0 and the slots above
`n_slots − n_advertisers`) is assigned. -/
theorem C7_allocation_validity (n_slots : ℕ) (ctrs values : List ℚ)
    (al : List ℤ) (pr hst : List ℚ)
    (hval : GSP.ValidInstance n_slots ctrs values)
    (hrun : GSP.run_auction n_slots ctrs values = some (al, pr, hst)) :
    al.length = n_slots ∧
    al.Pairwise (fun x y => x = -1 ∨ y = -1 ∨ x ≠ y) ∧
    (∀ s : ℕ, 1 ≤ s → s ≤ n_slots - values.length → al.getD s (-1) = -1) ∧
    (∀ s : ℕ, s < n_slots → s = 0 ∨ n_slots - values.length < s →
      al.getD s (-1) ≠ -1) := by
  by_cases h2 : 2 ≤ n_slots
  · obtain ⟨a1, h1, p1, a2, h2', al2, pr2, ns2, heq1, heq2, hrun', hlen2, hsub2,
      hnd2, hhl, hns2, hprl, hall, hsub1, hnd1⟩ := GSP.run_parts hval h2
    rw [hrun'] at hrun
    simp only [Option.some.injEq, Prod.mk.injEq] at hrun
    obtain ⟨hal_eq, hpr_eq, hh_eq⟩ := hrun
    obtain ⟨hns_le, hlen_al2, hB1, hB2, hB3⟩ :=
      GSP.phase2_alloc_inv values.length a1 h1 (List.replicate n_slots (-1)) p1
        ((n_slots : ℤ) - 1) heq2 hnd1
        (by rw [List.length_replicate]; push_cast; omega)
        (by
          intro t ht htle
          rw [List.length_replicate] at ht
          exact GSP.getD_replicate 0 (-1) ht)
        (by
          intro t ht hgt
          rw [List.length_replicate] at ht
          exact absurd hgt (by push_cast; omega))
        (by
          intro t u ht hu hgt hgu htu
          rw [List.length_replicate] at ht
          exact absurd hgt (by push_cast; omega))
    rw [List.length_replicate] at hlen_al2
    have hmin_le : min values.length n_slots ≤ n_slots := min_le_right _ _
    have hmin_le' : min values.length n_slots ≤ values.length := min_le_left _ _
    have hn1 : 1 ≤ values.length := hval.2.2.2.2.2.2.2.1
    have hns2_nonneg : 0 ≤ ns2 := by rw [hns2]; push_cast; omega
    obtain ⟨a, ha2⟩ : ∃ a, a2 = [a] := by
      cases a2 with
      | nil => exact absurd hlen2 (by simp)
      | cons a rest =>
        cases rest with
        | nil => exact ⟨a, rfl⟩
        | cons b rest' => exact absurd hlen2 (by simp)
    have hfin : GSP.finalAssign a2 ns2 al2 pr2 h2' =
        (al2.set 0 ((a : ℕ) : ℤ), pr2.set a (h2'.getLastD 0)) := by
      rw [ha2]
      simp only [GSP.finalAssign, if_pos hns2_nonneg]
    have hfin1 : (GSP.finalAssign a2 ns2 al2 pr2 h2').1 =
        al2.set 0 ((a : ℕ) : ℤ) := by rw [hfin]
    rw [hfin1] at hal_eq
    subst hal_eq
    have h0lt : 0 < al2.length := by omega
    have e0 : (al2.set 0 ((a : ℕ) : ℤ)).getD 0 0 = ((a : ℕ) : ℤ) := by
      rw [List.getD_eq_get?, List.get?_set_eq_of_lt _ h0lt, Option.getD_some]
    have eS : ∀ t : ℕ, t ≠ 0 →
        (al2.set 0 ((a : ℕ) : ℤ)).getD t 0 = al2.getD t 0 := by
      intro t ht
      rw [List.getD_eq_get?, List.get?_set_ne _ _ (fun hx => ht hx.symm),
        ← List.getD_eq_get?]
    have hlenF : (al2.set 0 ((a : ℕ) : ℤ)).length = n_slots := by
      rw [List.length_set]; exact hlen_al2
    refine ⟨hlenF, ?_, ?_, ?_⟩
    · rw [List.pairwise_iff_get]
      intro i j hij
      have hibd : i.val < n_slots := by have := i.isLt; omega
      have hjbd : j.val < n_slots := by have := j.isLt; omega
      have hclass : ∀ t : Fin (al2.set 0 ((a : ℕ) : ℤ)).length,
          ((al2.set 0 ((a : ℕ) : ℤ)).get t = -1) ∨
          (t.val = 0 ∧ (al2.set 0 ((a : ℕ) : ℤ)).get t = ((a : ℕ) : ℤ)) ∨
          (ns2 < (t.val : ℤ) ∧ 0 < t.val ∧
            (al2.set 0 ((a : ℕ) : ℤ)).get t = al2.getD t.val 0 ∧
            ∃ b : ℕ, al2.getD t.val 0 = ((b : ℕ) : ℤ) ∧ b ∉ a2) := by
        intro t
        have htbd : t.val < n_slots := by have := t.isLt; omega
        have hgetD : (al2.set 0 ((a : ℕ) : ℤ)).get t =
            (al2.set 0 ((a : ℕ) : ℤ)).getD t.val 0 :=
          (GSP.getD_eq_get 0 t.isLt).symm
        by_cases ht0 : t.val = 0
        · refine Or.inr (Or.inl ⟨ht0, ?_⟩)
          rw [hgetD, ht0, e0]
        · by_cases htle : (t.val : ℤ) ≤ ns2
          · refine Or.inl ?_
            rw [hgetD, eS t.val ht0]
            exact hB1 t.val (by omega) htle
          · refine Or.inr (Or.inr ⟨by omega, by omega,
              by rw [hgetD, eS t.val ht0], ?_⟩)
            exact hB2 t.val (by omega) (by omega)
      rcases hclass i with hi | ⟨hi0, hieq⟩ | ⟨hims, hipos, hieq, b, hbeq, hbnot⟩
      · exact Or.inl hi
      · rcases hclass j with hj | ⟨hj0, hjeq⟩ | ⟨hjms, hjpos, hjeq, c, hceq, hcnot⟩
        · exact Or.inr (Or.inl hj)
        · exact absurd hij (by rw [Fin.lt_def, hi0, hj0]; omega)
        · refine Or.inr (Or.inr ?_)
          rw [hieq, hjeq, hceq]
          intro hx
          apply hcnot
          rw [ha2]
          have : a = c := Nat.cast_injective hx
          simp [this]
      · rcases hclass j with hj | ⟨hj0, hjeq⟩ | ⟨hjms, hjpos, hjeq, c, hceq, hcnot⟩
        · exact Or.inr (Or.inl hj)
        · exact absurd hij (by rw [Fin.lt_def, hj0]; omega)
        · refine Or.inr (Or.inr ?_)
          rw [hieq, hjeq]
          exact hB3 i.val j.val (by omega) (by omega) hims hjms
            (by rw [Fin.lt_def] at hij; omega)
    · intro s hs1 hs2
      have hslt : s < (al2.set 0 ((a : ℕ) : ℤ)).length := by
        rw [hlenF]; omega
      rw [GSP.getD_eq_get (-1) hslt, ← GSP.getD_eq_get 0 hslt, eS s (by omega)]
      refine hB1 s (by omega) ?_
      rw [hns2]
      push_cast
      omega
    · intro s hslt hor
      have hsltF : s < (al2.set 0 ((a : ℕ) : ℤ)).length := by
        rw [hlenF]; omega
      rw [GSP.getD_eq_get (-1) hsltF, ← GSP.getD_eq_get 0 hsltF]
      rcases hor with h0 | hgt
      · subst h0
        rw [e0]
        omega
      · have hs0 : s ≠ 0 := by omega
        rw [eS s hs0]
        have hgt' : ns2 < (s : ℤ) := by rw [hns2]; push_cast; omega
        obtain ⟨b, hbeq, -⟩ := hB2 s (by omega) hgt'
        rw [hbeq]
        omega
  · have hns1 : n_slots = 1 := by have := hval.1; omega
    subst hns1
    rcases Nat.lt_or_ge values.length 2 with hnlt | hnge
    · have hn1 : values.length = 1 := by
        have := hval.2.2.2.2.2.2.2.1; omega
      have hg1 : ¬ (1 : ℕ) < (List.range values.length).length := by
        rw [List.length_range]; omega
      have hstop1 : GSP.phase1 1 ctrs values values.length
          (List.range values.length) [] (List.replicate values.length 0) =
          some (List.range values.length, [], List.replicate values.length 0) :=
        GSP.phase1_stop hg1
      have hg2 : ¬ (1 < (List.range values.length).length ∧
          0 ≤ ((1 : ℕ) : ℤ) - 1) := by
        rw [List.length_range]
        omega
      have hstop2 : GSP.phase2 1 ctrs values values.length
          (List.range values.length) [] (List.replicate 1 (-1))
          (List.replicate values.length 0) (((1 : ℕ) : ℤ) - 1) =
          some (List.range values.length, [], List.replicate 1 (-1),
            List.replicate values.length 0, ((1 : ℕ) : ℤ) - 1) :=
        GSP.phase2_stop hg2
      simp only [GSP.run_auction, hstop1, hstop2] at hrun
      rw [hn1] at hrun
      have hfina : (GSP.finalAssign (List.range 1) (((1 : ℕ) : ℤ) - 1)
          (List.replicate 1 (-1)) (List.replicate 1 0) []).1 = [0] := by
        with_unfolding_all decide
      have hfinb : (GSP.finalAssign (List.range 1) (((1 : ℕ) : ℤ) - 1)
          (List.replicate 1 (-1)) (List.replicate 1 0) []).2 = [0] := by
        with_unfolding_all decide
      rw [hfina, hfinb] at hrun
      simp only [Option.some.injEq, Prod.mk.injEq] at hrun
      obtain ⟨hal, hp, hh⟩ := hrun
      subst hal
      refine ⟨by decide, by decide, ?_, ?_⟩
      · intro s hs1 hs2
        rw [hn1] at hs2
        exact absurd hs2 (by omega)
      · intro s hslt hor
        have hs0 : s = 0 := by omega
        subst hs0
        decide
    · rw [GSP.run_auction_slot1_crash ctrs values (hval.2.1) hnge] at hrun
      exact Option.noConfusion hrun

/-- C7 witness: the valid instance `n_slots = 2`, `ctrs = [2, 1, 0]`,
`values = [5]` allocates `[0, -1]`: slot 0 assigned to the sole
advertiser, slot 1 — the one index in `1 .. n_slots − n_advertisers` —
unassigned, and no advertiser appears twice. -/
theorem C7_allocation_validity_witness :
    ([0, -1] : List ℤ).length = 2 ∧
    ([0, -1] : List ℤ).Pairwise (fun x y => x = -1 ∨ y = -1 ∨ x ≠ y) ∧
    (∀ s : ℕ, 1 ≤ s → s ≤ 2 - ([5] : List ℚ).length →
      ([0, -1] : List ℤ).getD s (-1) = -1) ∧
    (∀ s : ℕ, s < 2 → s = 0 ∨ 2 - ([5] : List ℚ).length < s →
      ([0, -1] : List ℤ).getD s (-1) ≠ -1) := by
  have hval : GSP.ValidInstance 2 [2, 1, 0] [5] := by with_unfolding_all decide
  have hrun : GSP.run_auction 2 [2, 1, 0] [5] = some ([0, -1], [0], []) := by
    with_unfolding_all decide
  exact C7_allocation_validity 2 [2, 1, 0] [5] [0, -1] [0] [] hval hrun

/-- C7 counterexample: on the valid instance `n_slots = 3`,
`ctrs = [4, 2, 1, 0]`, `values = [1, 2]`, slot 2 — an index
`≥ n_advertisers = 2` — is assigned advertiser 0, not left unassigned:
the loop fills slots from the bottom, so the claim's unassigned-slot
range is wrong. -/
theorem C7_counterexample_bottom_fill :
    GSP.ValidInstance 3 [4, 2, 1, 0] [1, 2] ∧
    GSP.run_auction 3 [4, 2, 1, 0] [1, 2] =
      some ([1, -1, 0], [0, 1/2], [1/2]) ∧
    (2 : ℕ) ≥ ([1, 2] : List ℚ).length ∧ (0 : ℤ) ≠ -1 := by
  with_unfolding_all decide

/-- C10: for an instance with more advertisers than slots, pairwise
distinct positive values, and strictly positive weakly descending CTRs
`c_0..c_{n_slots-1}`, the closed-form per-click VCG price computed by
`calculate_vcg_payments` (with CTR list `c ++ [0]`) for the advertiser at
rank `i < n_slots` equals the counterfactual per-click VCG payment of
`simulate_auctions` for slot `i` (value to others without the rank-`i`
advertiser, minus value to others with them present, divided by `c_i`). -/
theorem C10_vcg_refinement (n_slots : ℕ) (c values : List ℚ) (i : ℕ)
    (hclen : c.length = n_slots) (h1 : 1 ≤ n_slots) (hn : n_slots < values.length)
    (hdist : values.Nodup) (hvpos : ∀ x ∈ values, 0 < x)
    (hcdesc : ∀ j, j + 1 < c.length → c.getD (j + 1) 0 ≤ c.getD j 0)
    (hcpos : ∀ x ∈ c, 0 < x) (hi : i < n_slots) :
    (GSP.calculate_vcg_payments n_slots (c ++ [0]) values).getD
        ((GSP.argsortDesc values).getD i 0) 0 =
      GSP.vcg_counterfactual_payment n_slots c
        ((GSP.argsortDesc values).map (fun k => values.getD k 0)) i := by
  have hSlen : (GSP.argsortDesc values).length = values.length :=
    GSP.argsortDesc_length values
  have hsvlen : ((GSP.argsortDesc values).map (fun k => values.getD k 0)).length =
      values.length := by rw [List.length_map, hSlen]
  have hi' : i < min n_slots values.length := by omega
  -- left-hand side: the closed-form entry
  rw [List.getD_eq_get?,
    GSP.calculate_vcg_payments_get? n_slots (c ++ [0]) values hi', Option.getD_some]
  have hci : (c ++ [0]).getD i 0 = c.getD i 0 :=
    List.getD_append _ _ _ _ (by omega)
  have hcipos : 0 < c.getD i 0 := by
    apply hcpos
    rw [GSP.getD_eq_get 0 (show i < c.length by omega)]
    exact List.get_mem _ _ _
  rw [if_pos (by rw [hci]; exact hcipos)]
  have hmin2 : min (n_slots + 1) values.length = n_slots + 1 := by omega
  rw [hmin2, GSP.foldl_add_eq_sum, zero_add, GSP.range'_map_sum,
    show i + 1 + (n_slots + 1 - (i + 1)) = n_slots + 1 by omega, hci]
  -- right-hand side: unfold the counterfactual computation
  have htake : c.take n_slots = c := by
    rw [← hclen]
    exact List.take_length c
  have hsorted_sv : ((GSP.argsortDesc values).map (fun k => values.getD k 0)).Pairwise
      (fun a b => b ≤ a) := by
    refine List.Pairwise.map _ ?_ (GSP.argsortDesc_pairwise values)
    intro a b hab
    rcases hab with h | ⟨h, -⟩
    · exact le_of_lt h
    · exact le_of_eq h.symm
  have hsort_eq : GSP.sortDesc
      (((GSP.argsortDesc values).map (fun k => values.getD k 0)).eraseIdx i) =
      ((GSP.argsortDesc values).map (fun k => values.getD k 0)).eraseIdx i :=
    GSP.sortDesc_of_sorted
      (List.Pairwise.sublist (List.eraseIdx_sublist _ i) hsorted_sv)
  simp only [GSP.vcg_counterfactual_payment]
  rw [htake, hsort_eq]
  -- both dot products as Finset sums
  have hotherslen :
      (((GSP.argsortDesc values).map (fun k => values.getD k 0)).eraseIdx i).length =
      values.length - 1 := by
    rw [List.length_eraseIdx]
    rw [hsvlen]
    simp only [if_pos (show i < values.length by omega)]
  have hVW : GSP.dotSum c
      (((GSP.argsortDesc values).map (fun k => values.getD k 0)).take n_slots) =
      ∑ k in Finset.range n_slots, c.getD k 0 *
        ((GSP.argsortDesc values).map (fun k => values.getD k 0)).getD k 0 := by
    rw [GSP.dotSum_eq_sum,
      show min c.length (((GSP.argsortDesc values).map
        (fun k => values.getD k 0)).take n_slots).length = n_slots by
          rw [List.length_take, hclen, hsvlen]; omega]
    exact Finset.sum_congr rfl fun k hk => by
      rw [GSP.getD_take 0 (Finset.mem_range.mp hk)]
  have hVWO : GSP.dotSum c
      ((((GSP.argsortDesc values).map (fun k => values.getD k 0)).eraseIdx i).take
        n_slots) =
      ∑ k in Finset.range n_slots, c.getD k 0 *
        (((GSP.argsortDesc values).map (fun k => values.getD k 0)).eraseIdx i).getD
          k 0 := by
    rw [GSP.dotSum_eq_sum,
      show min c.length ((((GSP.argsortDesc values).map
        (fun k => values.getD k 0)).eraseIdx i).take n_slots).length = n_slots by
          rw [List.length_take, hclen, hotherslen]; omega]
    exact Finset.sum_congr rfl fun k hk => by
      rw [GSP.getD_take 0 (Finset.mem_range.mp hk)]
  rw [hVW, hVWO]
  -- the remaining identity between the two numerators
  have hw : ∀ j ∈ Finset.Ico (i + 1) (n_slots + 1),
      ((c ++ [0]).getD (j - 1) 0 - (c ++ [0]).getD j 0) *
        values.getD ((GSP.argsortDesc values).getD j 0) 0 =
      (c ++ [0]).getD (j - 1) 0 *
        ((GSP.argsortDesc values).map (fun k => values.getD k 0)).getD j 0 -
      (c ++ [0]).getD j 0 *
        ((GSP.argsortDesc values).map (fun k => values.getD k 0)).getD j 0 := by
    intro j hj
    obtain ⟨hj1, hj2⟩ := Finset.mem_Ico.mp hj
    rw [GSP.map_getD (show j < (GSP.argsortDesc values).length by omega)]
    ring
  rw [Finset.sum_congr rfl hw, Finset.sum_sub_distrib]
  have hA1 : ∑ j in Finset.Ico (i + 1) (n_slots + 1), (c ++ [0]).getD (j - 1) 0 *
      ((GSP.argsortDesc values).map (fun k => values.getD k 0)).getD j 0 =
      ∑ k in Finset.Ico i n_slots, c.getD k 0 *
        ((GSP.argsortDesc values).map (fun k => values.getD k 0)).getD (k + 1) 0 := by
    rw [Finset.sum_Ico_eq_sum_range, Finset.sum_Ico_eq_sum_range,
      show n_slots + 1 - (i + 1) = n_slots - i by omega]
    refine Finset.sum_congr rfl ?_
    intro t ht
    have htb : t < n_slots - i := Finset.mem_range.mp ht
    rw [show i + 1 + t - 1 = i + t by omega, show i + 1 + t = i + t + 1 by omega,
      List.getD_append _ _ _ _ (show i + t < c.length by omega)]
  have hA2 : ∑ j in Finset.Ico (i + 1) (n_slots + 1), (c ++ [0]).getD j 0 *
      ((GSP.argsortDesc values).map (fun k => values.getD k 0)).getD j 0 =
      ∑ j in Finset.Ico (i + 1) n_slots, c.getD j 0 *
        ((GSP.argsortDesc values).map (fun k => values.getD k 0)).getD j 0 := by
    rw [Finset.sum_Ico_succ_top (by omega)]
    have hz : (c ++ [0]).getD n_slots 0 = 0 := by
      rw [List.getD_append_right _ _ _ _ (by omega)]
      simp [hclen]
    rw [hz, zero_mul, add_zero]
    refine Finset.sum_congr rfl ?_
    intro j hj
    obtain ⟨-, hj2⟩ := Finset.mem_Ico.mp hj
    rw [List.getD_append _ _ _ _ (by omega)]
  have hO : ∀ k, k < n_slots →
      (((GSP.argsortDesc values).map (fun k => values.getD k 0)).eraseIdx i).getD
        k 0 =
      if k < i then ((GSP.argsortDesc values).map (fun k => values.getD k 0)).getD k 0
      else ((GSP.argsortDesc values).map (fun k => values.getD k 0)).getD (k + 1) 0 := by
    intro k hk
    by_cases hki : k < i
    · rw [if_pos hki, GSP.getD_eraseIdx_of_lt 0 hki]
    · rw [if_neg hki, GSP.getD_eraseIdx_of_ge 0
        (show i < ((GSP.argsortDesc values).map (fun k => values.getD k 0)).length by
          rw [hsvlen]; omega) (by omega)]
  have hsplit_o : ∑ k in Finset.range n_slots, c.getD k 0 *
      (((GSP.argsortDesc values).map (fun k => values.getD k 0)).eraseIdx i).getD
        k 0 =
      (∑ k in Finset.Ico 0 i, c.getD k 0 *
        ((GSP.argsortDesc values).map (fun k => values.getD k 0)).getD k 0) +
      ∑ k in Finset.Ico i n_slots, c.getD k 0 *
        ((GSP.argsortDesc values).map (fun k => values.getD k 0)).getD (k + 1) 0 := by
    rw [Finset.range_eq_Ico,
      ← Finset.sum_Ico_consecutive _ (Nat.zero_le i) (le_of_lt hi)]
    congr 1
    · refine Finset.sum_congr rfl ?_
      intro k hk
      obtain ⟨-, hk2⟩ := Finset.mem_Ico.mp hk
      rw [hO k (by omega), if_pos hk2]
    · refine Finset.sum_congr rfl ?_
      intro k hk
      obtain ⟨hk1, hk2⟩ := Finset.mem_Ico.mp hk
      rw [hO k hk2, if_neg (by omega)]
  have hsplit_s : ∑ k in Finset.range n_slots, c.getD k 0 *
      ((GSP.argsortDesc values).map (fun k => values.getD k 0)).getD k 0 =
      (∑ k in Finset.Ico 0 i, c.getD k 0 *
        ((GSP.argsortDesc values).map (fun k => values.getD k 0)).getD k 0) +
      (c.getD i 0 * ((GSP.argsortDesc values).map (fun k => values.getD k 0)).getD
          i 0 +
        ∑ k in Finset.Ico (i + 1) n_slots, c.getD k 0 *
          ((GSP.argsortDesc values).map (fun k => values.getD k 0)).getD k 0) := by
    rw [Finset.range_eq_Ico,
      ← Finset.sum_Ico_consecutive _ (Nat.zero_le i) (le_of_lt hi),
      Finset.sum_eq_sum_Ico_succ_bot hi]
  rw [hA1, hA2, hsplit_o, hsplit_s]
  ring

/-- C10 witness: on the concrete instance `n_slots = 2`, `c = [1, 3/5]`,
`values = [10, 6, 2]`, rank 0: both computations give 18/5. -/
theorem C10_vcg_refinement_witness :
    (GSP.calculate_vcg_payments 2 ([1, 3/5] ++ [0]) [10, 6, 2]).getD
        ((GSP.argsortDesc [10, 6, 2]).getD 0 0) 0 =
      GSP.vcg_counterfactual_payment 2 [1, 3/5]
        ((GSP.argsortDesc [10, 6, 2]).map (fun k => ([10, 6, 2] : List ℚ).getD k 0))
        0 := by
  have hdist : ([10, 6, 2] : List ℚ).Nodup := by with_unfolding_all decide
  have hvpos : ∀ x ∈ ([10, 6, 2] : List ℚ), 0 < x := by with_unfolding_all decide
  have hcdesc : ∀ j, j < ([1, 3/5] : List ℚ).length - 1 →
      ([1, 3/5] : List ℚ).getD (j + 1) 0 ≤ ([1, 3/5] : List ℚ).getD j 0 := by
    with_unfolding_all decide
  have hcdesc' : ∀ j, j + 1 < ([1, 3/5] : List ℚ).length →
      ([1, 3/5] : List ℚ).getD (j + 1) 0 ≤ ([1, 3/5] : List ℚ).getD j 0 :=
    fun j hj => hcdesc j (by omega)
  have hcpos : ∀ x ∈ ([1, 3/5] : List ℚ), 0 < x := by with_unfolding_all decide
  exact C10_vcg_refinement 2 [1, 3/5] [10, 6, 2] 0 (by decide) (by decide)
    (by decide) hdist hvpos hcdesc' hcpos (by decide)
